import Mathlib

/-!
Verification of the `bayesbow` package (Go): an incremental multinomial
naive-Bayes bag-of-words classifier.

Shallow embedding notes:
* Go `map[K]V` values are modelled as total functions with default value 0
  (reads of absent keys yield the zero value in Go).  The outer map
  `LWF : map[int]map[int]int` is modelled as `Int → Option (Int → Int)`
  because assigning through a nil inner map panics in Go, so presence of
  the inner map is observable.
* The per-document frequency map `freqWord : map[int]int` is iterated with
  `range`, so its key set matters; it is modelled as an association list
  whose keys are kept in first-insertion order (Go's iteration order is
  unspecified, but every completed run of the code folds commutative
  additive updates, so the final state does not depend on that order).
* Go run-time panics (assignment to a nil inner map, slice index out of
  range, the explicit consistency panic in `UpdatePL`) are modelled with
  `Except Bow Bow`: `Except.error s` is a run that panicked with the
  receiver left in state `s` at the moment of the panic.
* `float64` arithmetic is modelled exactly: the stored prior vector `PL`
  holds rationals (the code only ever stores quotients of machine
  integers there), and the log-domain score computations of `PWL`/`PLD`
  are modelled over the reals with `Real.log`/`Real.exp`.
* The package-global `conf Config` (set by `Init`) is passed explicitly
  to the functions that read it.
-/

set_option maxHeartbeats 1000000
set_option linter.unusedVariables false

namespace Bayesbow

/-- Configuration record (`Config` in the source): stop-word filtering
toggle, the stop-word list and the stop-word class list. -/
structure Config where
  UseStopWords : Bool
  StopWords : List String
  StopWordClasses : List String

/-- `IsStopWord`: a token is a stop word if it equals some configured stop
word, or begins with some configured stop-word class string
(`strings.HasPrefix` in the source). -/
def IsStopWord (conf : Config) (x : String) : Bool :=
  conf.StopWords.contains x || conf.StopWordClasses.any (fun c => x.startsWith c)

/-- The token filter used by both `Add` and `Predict`: a token is skipped
when it is empty, or when stop-word filtering is enabled and the token is a
stop word.  `keepToken` is the negation of that skip condition. -/
def keepToken (conf : Config) (w : String) : Bool :=
  !(w == "" || (conf.UseStopWords && IsStopWord conf w))

/-- The corpus state (`Bow` struct in the source).  Field names follow the
Go struct; `idxs` is the unexported reverse vocabulary index. -/
@[ext] structure Bow where
  Note : String
  LabelNames : List String
  LabelCount : Int
  Words : List String
  WordCount : Int
  WordDocCount : Int → Int
  DocCount : Int
  LWF : Int → Option (Int → Int)
  LabelWordCount : Int → Int
  PL : List ℚ
  LabelDocCount : List Int
  idxs : List (String × Int)

/-- First-match lookup in the association list modelling the Go map
`idxs : map[string]int`. -/
def idxLookup : List (String × Int) → String → Option Int
  | [], _ => none
  | p :: ps, w => if p.1 = w then some p.2 else idxLookup ps w

/-- `New`: create a corpus with a fixed label set.  `LWF` gets an empty
inner map for every label ID in `[0, labelCount)`; `PL` is initialised to
the uniform distribution; `LabelDocCount` is a zero slice of length
`labelCount`. -/
def Bow.new (note : String) (labelNames : List String) : Bow :=
  let labelCount := labelNames.length
  { Note := note
    LabelNames := labelNames
    LabelCount := Int.ofNat labelCount
    Words := []
    WordCount := 0
    WordDocCount := fun _ => 0
    DocCount := 0
    LWF := fun l => if 0 ≤ l ∧ l < Int.ofNat labelCount then some (fun _ => 0) else none
    LabelWordCount := fun _ => 0
    PL := List.replicate labelCount ((1 : ℚ) / (Int.ofNat labelCount : ℚ))
    LabelDocCount := List.replicate labelCount 0
    idxs := [] }

/-- Vocabulary resolution (the shared idiom of `Add` and `Predict`,
lines 120–128 / 73–81): if the word is known return its ID, otherwise
register it under the next sequential ID (`WordCount`) and increment
`WordCount`. -/
def resolve (s : Bow) (w : String) : Bow × Int :=
  match idxLookup s.idxs w with
  | some i => (s, i)
  | none =>
    ({ s with idxs := s.idxs ++ [(w, s.WordCount)], WordCount := s.WordCount + 1 },
      s.WordCount)

/-- `freqWord[idx] = freqWord[idx] + 1` on the association-list model of
the per-document frequency map: bump an existing key in place, or append
a new key with count 1. -/
def bump (m : List (Int × Int)) (k : Int) : List (Int × Int) :=
  if k ∈ m.map Prod.fst then
    m.map (fun p => if p.1 = k then (p.1, p.2 + 1) else p)
  else m ++ [(k, 1)]

/-- The tokenisation loop of `Add` (lines 112–135): filter tokens, resolve
each kept token to a word ID (growing the vocabulary), extend the `seq`
word-ID list and the per-document frequency map. -/
def scanTokens (conf : Config) :
    Bow → List String → List Int → List (Int × Int) → Bow × List Int × List (Int × Int)
  | s, [], seq, freq => (s, seq, freq)
  | s, w :: ws, seq, freq =>
    if keepToken conf w then
      let r := resolve s w
      scanTokens conf r.1 ws (seq ++ [r.2]) (bump freq r.2)
    else scanTokens conf s ws seq freq

/-- The tokenisation loop of `Predict` (lines 65–86): identical to the
`Add` loop except that no `seq` list is built. -/
def predictScan (conf : Config) : Bow → List String → List (Int × Int) → Bow × List (Int × Int)
  | s, [], freq => (s, freq)
  | s, w :: ws, freq =>
    if keepToken conf w then
      let r := resolve s w
      predictScan conf r.1 ws (bump freq r.2)
    else predictScan conf s ws freq

/-- Left fold of a fallible step over a list, propagating the state at the
moment of a panic (`Except.error`). -/
def exceptFoldl {α : Type} (f : Bow → α → Except Bow Bow) : Bow → List α → Except Bow Bow
  | s, [] => Except.ok s
  | s, a :: as =>
    match f s a with
    | Except.error e => Except.error e
    | Except.ok s' => exceptFoldl f s' as

/-- Read of `dd.LWF[labelID][wordID]`: reading through an absent (nil)
inner map yields 0 in Go. -/
def LWFat (s : Bow) (l w : Int) : Int :=
  match s.LWF l with
  | none => 0
  | some m => m w

/-- Body of the inner loop of `Add` (lines 147–157) for one word ID `w`
with per-document count `cnt` and one label ID `l`, in source order:
increment `WordDocCount[w]`; then add `cnt` to `LWF[l][w]` — which panics
when `LWF[l]` is a nil map (out-of-range label), with `WordDocCount`
already incremented; then add `cnt` to `LabelWordCount[l]`. -/
def addWordLabel (s : Bow) (w cnt l : Int) : Except Bow Bow :=
  let sa : Bow :=
    { s with WordDocCount := fun x => if x = w then s.WordDocCount x + 1 else s.WordDocCount x }
  match s.LWF l with
  | none => Except.error sa
  | some m =>
    let sb : Bow :=
      { sa with LWF := fun x => if x = l then some (fun y => if y = w then m y + cnt else m y)
                                else sa.LWF x }
    Except.ok
      { sb with LabelWordCount := fun x => if x = l then sb.LabelWordCount x + cnt
                                           else sb.LabelWordCount x }

/-- Body of the final loop of `Add` (lines 160–163):
`LabelDocCount[labelID]++`, panicking (slice index out of range) when the
label ID is outside the bounds of the `LabelDocCount` slice. -/
def bumpLDC (s : Bow) (l : Int) : Except Bow Bow :=
  if 0 ≤ l ∧ l < (s.LabelDocCount.length : Int) then
    Except.ok
      { s with LabelDocCount := s.LabelDocCount.set l.toNat (s.LabelDocCount.getD l.toNat 0 + 1) }
  else Except.error s

/-- `Add` (lines 102–165): tokenise and resolve the document, increment
`DocCount`, then for every distinct word ID of the document and every
label update `WordDocCount`, `LWF` and `LabelWordCount`, and finally
increment `LabelDocCount` for every label.  The `id` argument is unused by
the source as well.  A run that panics yields `Except.error` carrying the
receiver state at the moment of the panic. -/
def addExec (conf : Config) (dd : Bow) (docId : String) (words : List String)
    (labels : List Int) : Except Bow Bow :=
  let r := scanTokens conf dd words [] []
  let s1 : Bow := { r.1 with DocCount := r.1.DocCount + 1 }
  match exceptFoldl (fun s p => exceptFoldl (fun s' l => addWordLabel s' p.1 p.2 l) s labels)
      s1 r.2.2 with
  | Except.error e => Except.error e
  | Except.ok s2 => exceptFoldl bumpLDC s2 labels

/-- The receiver state after a run of `Add`, whether it completed or
panicked. -/
def addEnd (conf : Config) (dd : Bow) (docId : String) (words : List String)
    (labels : List Int) : Bow :=
  match addExec conf dd docId words labels with
  | Except.error e => e
  | Except.ok s => s

/-- One iteration of the `UpdatePL` loop (lines 178–186) at label ID `l`:
read `LabelDocCount[l]` (slice-index panic when out of bounds), panic on
the internal-consistency check
`LabelDocCount[l]+1 > DocCount+LabelCount`, then store
`(LabelDocCount[l]+1)/(DocCount+LabelCount)` into `PL[l]` (slice-index
panic when out of bounds).  The float64 quotient is modelled as the exact
rational. -/
def updatePLStep (s : Bow) (l : Nat) : Except Bow Bow :=
  if l < s.LabelDocCount.length then
    if s.LabelDocCount.getD l 0 + 1 > s.DocCount + s.LabelCount then Except.error s
    else if l < s.PL.length then
      Except.ok
        { s with PL :=
            s.PL.set l (((s.LabelDocCount.getD l 0 : ℚ) + 1) /
              ((s.DocCount : ℚ) + (s.LabelCount : ℚ))) }
    else Except.error s
  else Except.error s

/-- `UpdatePL` (lines 177–187): refresh the cached prior `PL[l]` for every
label ID `l` in `[0, LabelCount)`. -/
def updatePLExec (s : Bow) : Except Bow Bow :=
  exceptFoldl updatePLStep s (List.range s.LabelCount.toNat)

/-- The receiver state after a run of `UpdatePL`, completed or panicked. -/
def updatePLEnd (s : Bow) : Bow :=
  match updatePLExec s with
  | Except.error e => e
  | Except.ok t => t

/-- `PWL` (lines 190–194): log-likelihood
`ln((LWF[l][w]+1)/(LabelWordCount[l]+WordCount))` of word `w` under label
`l`, with add-one smoothing over the current vocabulary size. -/
noncomputable def PWL (s : Bow) (l w : Int) : ℝ :=
  Real.log (((LWFat s l w + 1 : Int) : ℝ) / ((s.LabelWordCount l + s.WordCount : Int) : ℝ))

/-- The per-label scores of `PLD` before normalisation (lines 202–209):
`exp(ln PL[l] + Σ over the keys of wordFreq of PWL(l, wordID))`.  The
values stored in `wordFreq` are never read — only the key list is
iterated.  `PL[l]` is read after a successful `UpdatePL`, which guarantees
the index is in bounds, so the read is modelled with `getD`. -/
noncomputable def pldScores (s : Bow) (wordFreq : List (Int × Int)) : List ℝ :=
  (List.range s.LabelCount.toNat).map (fun l =>
    Real.exp (wordFreq.foldl (fun acc p => acc + PWL s (Int.ofNat l) p.1)
      (Real.log (((s.PL.getD l 0 : ℚ) : ℝ)))))

/-- The normalised result vector of `PLD` (lines 210–212): each
exponentiated score divided by their sum. -/
noncomputable def pldVec (s : Bow) (wordFreq : List (Int × Int)) : List ℝ :=
  (pldScores s wordFreq).map
    (fun x => x / (pldScores s wordFreq).foldl (fun a b => a + b) 0)

/-- `PLD` (lines 198–214): run `UpdatePL` (possibly panicking), then
compute the normalised posterior vector from the refreshed state. -/
noncomputable def pldExec (s : Bow) (wordFreq : List (Int × Int)) :
    Except Bow (Bow × List ℝ) :=
  match updatePLExec s with
  | Except.error e => Except.error e
  | Except.ok t => Except.ok (t, pldVec t wordFreq)

/-- The arg-max loop of `Predict` (lines 90–96): left-to-right scan
keeping the label with the strictly greatest posterior so far. -/
noncomputable def argmaxLabel (pld : List ℝ) (labelCount : Int) : Int :=
  (List.range labelCount.toNat).foldl
    (fun m l => if pld.getD m.toNat 0 < pld.getD l 0 then Int.ofNat l else m) 0

/-- `Predict` (lines 62–99): tokenise and resolve the document (growing
the vocabulary exactly as `Add` does), compute the posterior vector via
`PLD`, and select the arg-max label. -/
noncomputable def predictExec (conf : Config) (dd : Bow) (words : List String) :
    Except Bow (Bow × Int × List ℝ) :=
  let r := predictScan conf dd words []
  match pldExec r.1 r.2 with
  | Except.error e => Except.error e
  | Except.ok tp => Except.ok (tp.1, argmaxLabel tp.2 tp.1.LabelCount, tp.2)

/-- The receiver state after a run of `Predict`, completed or panicked. -/
noncomputable def predictEnd (conf : Config) (dd : Bow) (words : List String) : Bow :=
  match predictExec conf dd words with
  | Except.error e => e
  | Except.ok out => out.1

/-- The word-table rebuild of `updateWords` (lines 216–221):
`make([]string, len(idxs))` then `Words[idx] = word` for every entry.
Writes are modelled in list order; under the vocabulary invariant every
index is written exactly once, so the order is immaterial. -/
def buildWords (m : List (String × Int)) : List String :=
  m.foldl (fun ws p => ws.set p.2.toNat p.1) (List.replicate m.length "")

/-- `updateWords`: refresh the forward word table from the reverse
index.  This is the state effect of `Save` (line 250); the subsequent
serialisation does not mutate the receiver. -/
def updateWords (s : Bow) : Bow :=
  { s with Words := buildWords s.idxs }

/-- `WordDocCountOf` (lines 168–174). -/
def WordDocCountOf (s : Bow) (word : String) : Int :=
  match idxLookup s.idxs word with
  | none => 0
  | some idx => s.WordDocCount idx

/-- Reachability through a step relation, starting from any freshly
created corpus (`New`). -/
inductive ReachVia (step : Bow → Bow → Prop) : Bow → Prop where
  | base (note : String) (names : List String) : ReachVia step (Bow.new note names)
  | step {s t : Bow} : ReachVia step s → step s t → ReachVia step t

/-- Step relation for claim C3: one completed `Add` with a non-empty list
of in-range label IDs. -/
def addStepC3 (s t : Bow) : Prop :=
  ∃ conf docId ws ls, ls ≠ [] ∧ (∀ l ∈ ls, 0 ≤ l ∧ l < s.LabelCount) ∧
    addExec conf s docId ws ls = Except.ok t

/-- Step relation for claim C5: one completed `Add` whose label list is a
non-empty duplicate-free subset of `[0, LabelCount)`, or one completed
`Predict`. -/
def stepC5 (s t : Bow) : Prop :=
  (∃ conf docId ws ls, ls ≠ [] ∧ ls.Nodup ∧ (∀ l ∈ ls, 0 ≤ l ∧ l < s.LabelCount) ∧
    addExec conf s docId ws ls = Except.ok t)
  ∨ (∃ conf ws out, predictExec conf s ws = Except.ok out ∧ t = out.1)

/-- Step relation for claim C7: one completed `Add` (any arguments), one
completed `Predict`, or the state effect of `Save` (`updateWords`). -/
def stepC7 (s t : Bow) : Prop :=
  (∃ conf docId ws ls, addExec conf s docId ws ls = Except.ok t)
  ∨ (∃ conf ws out, predictExec conf s ws = Except.ok out ∧ t = out.1)
  ∨ t = updateWords s

/-- Structural well-formedness of a corpus state: the facts `New`
establishes and every operation preserves.  (Bounds of `LabelDocCount`
and `PL`, the `LWF` domain, and consistency of the reverse vocabulary
index.) -/
structure BowWF (s : Bow) : Prop where
  ldc_len : s.LabelDocCount.length = s.LabelCount.toNat
  pl_len : s.PL.length = s.LabelCount.toNat
  lc_nonneg : 0 ≤ s.LabelCount
  lwf_dom : ∀ l : Int, (s.LWF l).isSome = true ↔ (0 ≤ l ∧ l < s.LabelCount)
  dc_nonneg : 0 ≤ s.DocCount
  wc_idxs : s.WordCount = Int.ofNat s.idxs.length
  idx_snds : s.idxs.map Prod.snd = (List.range s.idxs.length).map Int.ofNat
  idx_keys : (s.idxs.map Prod.fst).Nodup

/-- Whether a modelled run completed without a panic. -/
def exceptIsOk : Except Bow Bow → Bool
  | Except.ok _ => true
  | Except.error _ => false

/-- The receiver state of a modelled run, completed or panicked. -/
def exceptState : Except Bow Bow → Bow
  | Except.ok s => s
  | Except.error s => s

/-! ### Association-list lookup and `resolve` -/

theorem idxLookup_eq_none_iff (xs : List (String × Int)) (w : String) :
    idxLookup xs w = none ↔ w ∉ xs.map Prod.fst := by
  induction xs with
  | nil => simp [idxLookup]
  | cons p ps ih =>
    simp only [idxLookup, List.map_cons, List.mem_cons]
    by_cases h : p.1 = w
    · simp [h]
    · simp [h, ih, Ne.symm h]

theorem idxLookup_append_right (xs : List (String × Int)) (w : String) (c : Int)
    (h : idxLookup xs w = none) : idxLookup (xs ++ [(w, c)]) w = some c := by
  induction xs with
  | nil => simp [idxLookup]
  | cons p ps ih =>
    simp only [idxLookup] at h ⊢
    by_cases hp : p.1 = w
    · simp [hp] at h
    · simp only [hp, if_false] at h ⊢
      exact ih h

theorem idxLookup_append_left (xs ys : List (String × Int)) (w : String) (i : Int)
    (h : idxLookup xs w = some i) : idxLookup (xs ++ ys) w = some i := by
  induction xs with
  | nil => simp [idxLookup] at h
  | cons p ps ih =>
    simp only [idxLookup] at h ⊢
    by_cases hp : p.1 = w
    · simpa [hp] using h
    · simp only [hp, if_false] at h ⊢
      exact ih h

theorem idxLookup_mem_snd (xs : List (String × Int)) (w : String) (i : Int)
    (h : idxLookup xs w = some i) : i ∈ xs.map Prod.snd := by
  induction xs with
  | nil => simp [idxLookup] at h
  | cons p ps ih =>
    simp only [idxLookup] at h
    by_cases hp : p.1 = w
    · simp only [hp, if_true, Option.some.injEq] at h
      simp [h.symm]
    · simp only [hp, if_false] at h
      simp [ih h]

theorem idxLookup_of_mem_nodup (xs : List (String × Int)) (w : String) (i : Int)
    (hmem : (w, i) ∈ xs) (hnd : (xs.map Prod.fst).Nodup) : idxLookup xs w = some i := by
  induction xs with
  | nil => simp at hmem
  | cons p ps ih =>
    simp only [List.map_cons, List.nodup_cons] at hnd
    rcases List.mem_cons.mp hmem with h | h
    · simp [idxLookup, h.symm]
    · have hne : p.1 ≠ w := by
        intro hpw
        exact hnd.1 (hpw ▸ (List.mem_map.mpr ⟨(w, i), h, rfl⟩))
      simp [idxLookup, hne, ih h hnd.2]

/-- Resolution is stable: resolving a word, then resolving it again in the
resulting state, yields the same word ID. -/
theorem resolve_twice (s : Bow) (w : String) :
    (resolve (resolve s w).1 w).2 = (resolve s w).2 := by
  unfold resolve
  cases h : idxLookup s.idxs w with
  | some i => simp [h]
  | none =>
    have h2 := idxLookup_append_right s.idxs w s.WordCount h
    simp [h, h2]

theorem resolve_lookup (s : Bow) (w : String) :
    idxLookup (resolve s w).1.idxs w = some (resolve s w).2 := by
  unfold resolve
  cases h : idxLookup s.idxs w with
  | some i => simpa using h
  | none => simpa using idxLookup_append_right s.idxs w s.WordCount h

theorem resolve_extends (s : Bow) (w v : String) (i : Int)
    (h : idxLookup s.idxs v = some i) : idxLookup (resolve s w).1.idxs v = some i := by
  unfold resolve
  cases hw : idxLookup s.idxs w with
  | some j => simpa using h
  | none => simpa using idxLookup_append_left s.idxs [(w, s.WordCount)] v i h

theorem resolve_frame (s : Bow) (w : String) :
    (resolve s w).1.Note = s.Note ∧ (resolve s w).1.LabelNames = s.LabelNames ∧
    (resolve s w).1.LabelCount = s.LabelCount ∧ (resolve s w).1.Words = s.Words ∧
    (resolve s w).1.WordDocCount = s.WordDocCount ∧ (resolve s w).1.DocCount = s.DocCount ∧
    (resolve s w).1.LWF = s.LWF ∧ (resolve s w).1.LabelWordCount = s.LabelWordCount ∧
    (resolve s w).1.PL = s.PL ∧ (resolve s w).1.LabelDocCount = s.LabelDocCount := by
  unfold resolve
  cases h : idxLookup s.idxs w <;> simp

theorem resolve_wc_mono (s : Bow) (w : String) : s.WordCount ≤ (resolve s w).1.WordCount := by
  unfold resolve
  cases h : idxLookup s.idxs w <;> simp

theorem resolve_wf (s : Bow) (w : String) (hwf : BowWF s) : BowWF (resolve s w).1 := by
  unfold resolve
  cases h : idxLookup s.idxs w with
  | some i => simpa using hwf
  | none =>
    simp only
    refine ⟨hwf.ldc_len, hwf.pl_len, hwf.lc_nonneg, hwf.lwf_dom, hwf.dc_nonneg, ?_, ?_, ?_⟩
    · simp [hwf.wc_idxs]
    · simp only [List.map_append, List.length_append, List.map_cons, List.map_nil,
        List.length_cons, List.length_nil]
      rw [hwf.idx_snds, hwf.wc_idxs]
      rw [List.range_succ]
      simp
    · simp only [List.map_append, List.map_cons, List.map_nil]
      rw [List.nodup_append]
      refine ⟨hwf.idx_keys, List.nodup_singleton w, ?_⟩
      intro a ha hb
      simp only [List.mem_singleton] at hb
      subst hb
      exact (idxLookup_eq_none_iff s.idxs a).mp h ha

/-- With no duplicate keys, an entry's key looks up to its value even after
growth, so no word is ever assigned two distinct IDs. -/
theorem resolve_snd_bound (s : Bow) (w : String) (hwf : BowWF s) :
    0 ≤ (resolve s w).2 ∧ (resolve s w).2 < (resolve s w).1.WordCount := by
  unfold resolve
  cases h : idxLookup s.idxs w with
  | some i =>
    have hm := idxLookup_mem_snd s.idxs w i h
    rw [hwf.idx_snds] at hm
    simp only [List.mem_map, List.mem_range] at hm
    obtain ⟨j, hj, rfl⟩ := hm
    simp only
    rw [hwf.wc_idxs]
    simp only [Int.ofNat_eq_coe]
    omega
  | none =>
    simp only
    rw [hwf.wc_idxs]
    simp only [Int.ofNat_eq_coe]
    omega

/-! ### Per-document frequency maps -/

/-- Total count stored under key `k` in a frequency association list
(the value `freqWord[k]`, with duplicate keys — which never arise —
summed). -/
def freqAt : List (Int × Int) → Int → Int
  | [], _ => 0
  | p :: ps, k => (if p.1 = k then p.2 else 0) + freqAt ps k

/-- The sum of all stored counts. -/
def freqTotal (m : List (Int × Int)) : Int := (m.map Prod.snd).sum

theorem freqAt_append (a b : List (Int × Int)) (x : Int) :
    freqAt (a ++ b) x = freqAt a x + freqAt b x := by
  induction a with
  | nil => simp [freqAt]
  | cons p ps ih => simp [freqAt, ih]; ring

theorem freqAt_eq_zero_of_not_mem (m : List (Int × Int)) (x : Int)
    (h : x ∉ m.map Prod.fst) : freqAt m x = 0 := by
  induction m with
  | nil => rfl
  | cons p ps ih =>
    simp only [List.map_cons, List.mem_cons, not_or] at h
    simp [freqAt, Ne.symm h.1, ih h.2]

theorem mapBump_eq_self (m : List (Int × Int)) (k : Int) (h : k ∉ m.map Prod.fst) :
    m.map (fun p => if p.1 = k then (p.1, p.2 + 1) else p) = m := by
  induction m with
  | nil => rfl
  | cons p ps ih =>
    simp only [List.map_cons, List.mem_cons, not_or] at h
    simp [Ne.symm h.1, ih h.2]

theorem bump_keys_mem (m : List (Int × Int)) (k x : Int) :
    x ∈ (bump m k).map Prod.fst ↔ x ∈ m.map Prod.fst ∨ x = k := by
  unfold bump
  by_cases hc : k ∈ m.map Prod.fst
  · simp only [hc, if_true, List.map_map]
    have : (Prod.fst ∘ fun p : Int × Int => if p.1 = k then (p.1, p.2 + 1) else p) = Prod.fst := by
      funext p
      by_cases hp : p.1 = k <;> simp [hp]
    rw [this]
    constructor
    · exact fun h => Or.inl h
    · rintro (h | rfl)
      · exact h
      · exact hc
  · simp only [hc, if_false, List.map_append, List.mem_append, List.map_cons, List.map_nil,
      List.mem_singleton]

theorem bump_keys_nodup (m : List (Int × Int)) (k : Int)
    (hnd : (m.map Prod.fst).Nodup) : ((bump m k).map Prod.fst).Nodup := by
  unfold bump
  by_cases hc : k ∈ m.map Prod.fst
  · simp only [hc, if_true, List.map_map]
    have : (Prod.fst ∘ fun p : Int × Int => if p.1 = k then (p.1, p.2 + 1) else p) = Prod.fst := by
      funext p
      by_cases hp : p.1 = k <;> simp [hp]
    rw [this]
    exact hnd
  · simp only [hc, if_false, List.map_append, List.map_cons, List.map_nil]
    rw [List.nodup_append]
    exact ⟨hnd, List.nodup_singleton k, by
      intro a ha hb
      simp only [List.mem_singleton] at hb
      subst hb
      exact hc ha⟩

theorem freqAt_bump (m : List (Int × Int)) (k x : Int) (hnd : (m.map Prod.fst).Nodup) :
    freqAt (bump m k) x = freqAt m x + (if x = k then 1 else 0) := by
  unfold bump
  by_cases hc : k ∈ m.map Prod.fst
  · simp only [hc, if_true]
    induction m with
    | nil => simp at hc
    | cons p ps ih =>
      simp only [List.map_cons, List.nodup_cons] at hnd
      by_cases hp : p.1 = k
      · have hk : k ∉ ps.map Prod.fst := hp ▸ hnd.1
        simp only [List.map_cons, hp, if_true, mapBump_eq_self ps k hk, freqAt]
        by_cases hx : x = k
        · simp only [hx, hp, if_true]
          ring
        · have hpx : ¬ p.1 = x := fun h => hx (h.symm.trans hp)
          have hkx : ¬ k = x := fun h => hx h.symm
          simp [hpx, hx, hkx]
      · simp only [List.map_cons, List.mem_cons] at hc
        have hc' : k ∈ ps.map Prod.fst := by
          rcases hc with h | h
          · exact absurd h (fun hh => hp hh.symm)
          · exact h
        simp only [List.map_cons, hp, if_false, freqAt]
        rw [ih hnd.2 hc']
        ring
  · simp only [hc, if_false]
    rw [freqAt_append]
    simp only [freqAt]
    by_cases hx : x = k
    · simp [hx]
    · have hkx : ¬ k = x := fun h => hx h.symm
      simp [hx, hkx]

theorem freqTotal_bump (m : List (Int × Int)) (k : Int) (hnd : (m.map Prod.fst).Nodup) :
    freqTotal (bump m k) = freqTotal m + 1 := by
  unfold bump
  by_cases hc : k ∈ m.map Prod.fst
  · simp only [hc, if_true]
    induction m with
    | nil => simp at hc
    | cons p ps ih =>
      simp only [List.map_cons, List.nodup_cons] at hnd
      by_cases hp : p.1 = k
      · have hk : k ∉ ps.map Prod.fst := hp ▸ hnd.1
        simp only [List.map_cons, hp, if_true, mapBump_eq_self ps k hk]
        simp [freqTotal]
        ring
      · simp only [List.map_cons, List.mem_cons] at hc
        have hc' : k ∈ ps.map Prod.fst := by
          rcases hc with h | h
          · exact absurd h (fun hh => hp hh.symm)
          · exact h
        simp only [List.map_cons, hp, if_false]
        simp only [freqTotal, List.map_cons, List.sum_cons] at ih ⊢
        rw [ih hnd.2 hc']
        ring
  · simp only [hc, if_false, freqTotal, List.map_append]
    simp

/-! ### The tokenisation loops -/

/-- The word IDs of the kept tokens of a document, looked up in a given
reverse index. -/
def lookIds (conf : Config) (m : List (String × Int)) (ws : List String) : List Int :=
  (ws.filter (fun w => keepToken conf w)).map (fun w => (idxLookup m w).getD 0)

theorem scan_frame (conf : Config) (ws : List String) :
    ∀ (s : Bow) (seq : List Int) (freq : List (Int × Int)),
    (scanTokens conf s ws seq freq).1.Note = s.Note ∧
    (scanTokens conf s ws seq freq).1.LabelNames = s.LabelNames ∧
    (scanTokens conf s ws seq freq).1.LabelCount = s.LabelCount ∧
    (scanTokens conf s ws seq freq).1.Words = s.Words ∧
    (scanTokens conf s ws seq freq).1.WordDocCount = s.WordDocCount ∧
    (scanTokens conf s ws seq freq).1.DocCount = s.DocCount ∧
    (scanTokens conf s ws seq freq).1.LWF = s.LWF ∧
    (scanTokens conf s ws seq freq).1.LabelWordCount = s.LabelWordCount ∧
    (scanTokens conf s ws seq freq).1.PL = s.PL ∧
    (scanTokens conf s ws seq freq).1.LabelDocCount = s.LabelDocCount := by
  induction ws with
  | nil => intro s seq freq; simp [scanTokens]
  | cons w ws ih =>
    intro s seq freq
    simp only [scanTokens]
    by_cases hk : keepToken conf w
    · simp only [hk, if_true]
      obtain ⟨a1, a2, a3, a4, a5, a6, a7, a8, a9, a10⟩ := resolve_frame s w
      obtain ⟨b1, b2, b3, b4, b5, b6, b7, b8, b9, b10⟩ :=
        ih (resolve s w).1 (seq ++ [(resolve s w).2]) (bump freq (resolve s w).2)
      exact ⟨b1.trans a1, b2.trans a2, b3.trans a3, b4.trans a4, b5.trans a5, b6.trans a6,
        b7.trans a7, b8.trans a8, b9.trans a9, b10.trans a10⟩
    · simp only [hk, if_false]
      exact ih s seq freq

theorem scan_extends (conf : Config) (ws : List String) :
    ∀ (s : Bow) (seq : List Int) (freq : List (Int × Int)) (v : String) (i : Int),
    idxLookup s.idxs v = some i →
    idxLookup (scanTokens conf s ws seq freq).1.idxs v = some i := by
  induction ws with
  | nil => intro s seq freq v i h; simpa [scanTokens] using h
  | cons w ws ih =>
    intro s seq freq v i h
    simp only [scanTokens]
    by_cases hk : keepToken conf w
    · simp only [hk, if_true]
      exact ih (resolve s w).1 _ _ v i (resolve_extends s w v i h)
    · simp only [hk, if_false]
      exact ih s seq freq v i h

theorem scan_wc_mono (conf : Config) (ws : List String) :
    ∀ (s : Bow) (seq : List Int) (freq : List (Int × Int)),
    s.WordCount ≤ (scanTokens conf s ws seq freq).1.WordCount := by
  induction ws with
  | nil => intro s seq freq; simp [scanTokens]
  | cons w ws ih =>
    intro s seq freq
    simp only [scanTokens]
    by_cases hk : keepToken conf w
    · simp only [hk, if_true]
      exact le_trans (resolve_wc_mono s w) (ih (resolve s w).1 _ _)
    · simp only [hk, if_false]
      exact ih s seq freq

theorem scan_wf (conf : Config) (ws : List String) :
    ∀ (s : Bow) (seq : List Int) (freq : List (Int × Int)),
    BowWF s → BowWF (scanTokens conf s ws seq freq).1 := by
  induction ws with
  | nil => intro s seq freq h; simpa [scanTokens] using h
  | cons w ws ih =>
    intro s seq freq h
    simp only [scanTokens]
    by_cases hk : keepToken conf w
    · simp only [hk, if_true]
      exact ih (resolve s w).1 _ _ (resolve_wf s w h)
    · simp only [hk, if_false]
      exact ih s seq freq h

theorem scan_keeps (conf : Config) (ws : List String) :
    ∀ (s : Bow) (seq : List Int) (freq : List (Int × Int)) (w : String),
    w ∈ ws → keepToken conf w = true →
    ((idxLookup (scanTokens conf s ws seq freq).1.idxs w).isSome = true) := by
  induction ws with
  | nil => intro s seq freq w hw; simp at hw
  | cons v ws ih =>
    intro s seq freq w hw hkw
    rcases List.mem_cons.mp hw with rfl | hw
    · simp only [scanTokens, hkw, if_true]
      have := scan_extends conf ws (resolve s w).1 (seq ++ [(resolve s w).2])
        (bump freq (resolve s w).2) w (resolve s w).2 (resolve_lookup s w)
      simp [this]
    · simp only [scanTokens]
      by_cases hk : keepToken conf v
      · simp only [hk, if_true]
        exact ih (resolve s v).1 _ _ w hw hkw
      · simp only [hk, if_false]
        exact ih s seq freq w hw hkw

/-- The histogram invariant of the tokenisation loop: the frequency map's
keys are exactly the distinct word IDs of `seq`, with no duplicate keys,
storing the number of occurrences in `seq`, and totalling `seq.length`. -/
theorem scan_hist (conf : Config) (ws : List String) :
    ∀ (s : Bow) (seq : List Int) (freq : List (Int × Int)),
    (freq.map Prod.fst).Nodup →
    (∀ x, x ∈ freq.map Prod.fst ↔ x ∈ seq) →
    (∀ x, freqAt freq x = seq.count x) →
    freqTotal freq = seq.length →
    (((scanTokens conf s ws seq freq).2.2.map Prod.fst).Nodup ∧
     (∀ x, x ∈ (scanTokens conf s ws seq freq).2.2.map Prod.fst ↔
        x ∈ (scanTokens conf s ws seq freq).2.1) ∧
     (∀ x, freqAt (scanTokens conf s ws seq freq).2.2 x =
        (scanTokens conf s ws seq freq).2.1.count x) ∧
     freqTotal (scanTokens conf s ws seq freq).2.2 =
        (scanTokens conf s ws seq freq).2.1.length) := by
  induction ws with
  | nil =>
    intro s seq freq h1 h2 h3 h4
    exact ⟨h1, h2, h3, h4⟩
  | cons w ws ih =>
    intro s seq freq h1 h2 h3 h4
    simp only [scanTokens]
    by_cases hk : keepToken conf w
    · simp only [hk, if_true]
      refine ih (resolve s w).1 _ _ (bump_keys_nodup freq (resolve s w).2 h1) ?_ ?_ ?_
      · intro x
        rw [bump_keys_mem]
        simp [h2 x]
      · intro x
        rw [freqAt_bump freq (resolve s w).2 x h1, h3 x]
        simp [List.count_append]
        by_cases hx : x = (resolve s w).2
        · simp [hx]
        · have : ¬ ((resolve s w).2 = x) := fun h => hx h.symm
          simp [hx, this]
      · rw [freqTotal_bump freq (resolve s w).2 h1, h4]
        simp
    · simp only [hk, if_false]
      exact ih s seq freq h1 h2 h3 h4

/-- Structure of the loop results: the final `seq` is the input `seq`
followed by the kept tokens' IDs as found in the final index, and the
final frequency map is the input map bumped once per kept token in
order. -/
theorem scan_seq (conf : Config) (ws : List String) :
    ∀ (s : Bow) (seq : List Int) (freq : List (Int × Int)),
    (scanTokens conf s ws seq freq).2.1 =
      seq ++ lookIds conf (scanTokens conf s ws seq freq).1.idxs ws ∧
    (scanTokens conf s ws seq freq).2.2 =
      (lookIds conf (scanTokens conf s ws seq freq).1.idxs ws).foldl bump freq := by
  induction ws with
  | nil => intro s seq freq; simp [scanTokens, lookIds]
  | cons w ws ih =>
    intro s seq freq
    by_cases hk : keepToken conf w
    · have hscan : scanTokens conf s (w :: ws) seq freq =
          scanTokens conf (resolve s w).1 ws (seq ++ [(resolve s w).2])
            (bump freq (resolve s w).2) := by
        simp [scanTokens, hk]
      obtain ⟨ih1, ih2⟩ := ih (resolve s w).1 (seq ++ [(resolve s w).2])
        (bump freq (resolve s w).2)
      have hlook : idxLookup (scanTokens conf (resolve s w).1 ws (seq ++ [(resolve s w).2])
          (bump freq (resolve s w).2)).1.idxs w = some (resolve s w).2 :=
        scan_extends conf ws _ _ _ w (resolve s w).2 (resolve_lookup s w)
      have hids : lookIds conf (scanTokens conf (resolve s w).1 ws (seq ++ [(resolve s w).2])
          (bump freq (resolve s w).2)).1.idxs (w :: ws) =
          (resolve s w).2 :: lookIds conf (scanTokens conf (resolve s w).1 ws
            (seq ++ [(resolve s w).2]) (bump freq (resolve s w).2)).1.idxs ws := by
        simp [lookIds, hk, hlook]
      rw [hscan, hids]
      constructor
      · rw [ih1]
        simp
      · rw [ih2]
        simp
    · have hscan : scanTokens conf s (w :: ws) seq freq = scanTokens conf s ws seq freq := by
        simp [scanTokens, hk]
      have hids : lookIds conf (scanTokens conf s ws seq freq).1.idxs (w :: ws) =
          lookIds conf (scanTokens conf s ws seq freq).1.idxs ws := by
        simp [lookIds, hk]
      rw [hscan, hids]
      exact ih s seq freq

/-- When every kept token is already in the vocabulary, the tokenisation
loop leaves the state untouched and reads the IDs off the existing
index. -/
theorem scan_known (conf : Config) (ws : List String) :
    ∀ (s : Bow) (seq : List Int) (freq : List (Int × Int)),
    (∀ w ∈ ws, keepToken conf w = true → (idxLookup s.idxs w).isSome = true) →
    scanTokens conf s ws seq freq =
      (s, seq ++ lookIds conf s.idxs ws, (lookIds conf s.idxs ws).foldl bump freq) := by
  induction ws with
  | nil => intro s seq freq h; simp [scanTokens, lookIds]
  | cons w ws ih =>
    intro s seq freq h
    by_cases hk : keepToken conf w
    · obtain ⟨i, hi⟩ := Option.isSome_iff_exists.mp (h w (List.mem_cons_self w ws) hk)
      have hres : resolve s w = (s, i) := by
        unfold resolve
        rw [hi]
      have hscan : scanTokens conf s (w :: ws) seq freq =
          scanTokens conf s ws (seq ++ [i]) (bump freq i) := by
        simp [scanTokens, hk, hres]
      rw [hscan, ih s (seq ++ [i]) (bump freq i) (fun v hv hkv => h v (List.mem_cons_of_mem w hv) hkv)]
      have hids : lookIds conf s.idxs (w :: ws) = i :: lookIds conf s.idxs ws := by
        simp [lookIds, hk, hi]
      rw [hids]
      simp
    · have hscan : scanTokens conf s (w :: ws) seq freq = scanTokens conf s ws seq freq := by
        simp [scanTokens, hk]
      have hids : lookIds conf s.idxs (w :: ws) = lookIds conf s.idxs ws := by
        simp [lookIds, hk]
      rw [hscan, hids]
      exact ih s seq freq (fun v hv hkv => h v (List.mem_cons_of_mem w hv) hkv)

/-- Every word ID in the produced `seq` is a valid index of the final
vocabulary. -/
theorem scan_seq_bounds (conf : Config) (ws : List String) :
    ∀ (s : Bow) (seq : List Int) (freq : List (Int × Int)),
    BowWF s → (∀ j ∈ seq, 0 ≤ j ∧ j < s.WordCount) →
    (∀ j ∈ (scanTokens conf s ws seq freq).2.1,
      0 ≤ j ∧ j < (scanTokens conf s ws seq freq).1.WordCount) := by
  induction ws with
  | nil => intro s seq freq hwf hseq; simpa [scanTokens] using hseq
  | cons w ws ih =>
    intro s seq freq hwf hseq
    simp only [scanTokens]
    by_cases hk : keepToken conf w
    · simp only [hk, if_true]
      refine ih (resolve s w).1 _ _ (resolve_wf s w hwf) ?_
      intro j hj
      rcases List.mem_append.mp hj with hj | hj
      · have := hseq j hj
        have := resolve_wc_mono s w
        omega
      · simp only [List.mem_singleton] at hj
        subst hj
        exact resolve_snd_bound s w hwf
    · simp only [hk, if_false]
      exact ih s seq freq hwf hseq

/-- The `Predict` tokenisation loop is the `Add` loop without the `seq`
accumulator. -/
theorem predictScan_eq (conf : Config) (ws : List String) :
    ∀ (s : Bow) (freq : List (Int × Int)) (seq : List Int),
    predictScan conf s ws freq =
      ((scanTokens conf s ws seq freq).1, (scanTokens conf s ws seq freq).2.2) := by
  induction ws with
  | nil => intro s freq seq; simp [scanTokens, predictScan]
  | cons w ws ih =>
    intro s freq seq
    simp only [scanTokens, predictScan]
    by_cases hk : keepToken conf w
    · simp only [hk, if_true]
      exact ih (resolve s w).1 _ _
    · simp only [hk, if_false]
      exact ih s freq seq

/-! ### The counting folds of `Add` -/

/-- The eight fields untouched by both counting loops of `Add`. -/
def sameCore (s t : Bow) : Prop :=
  t.Note = s.Note ∧ t.LabelNames = s.LabelNames ∧ t.LabelCount = s.LabelCount ∧
  t.Words = s.Words ∧ t.WordCount = s.WordCount ∧ t.idxs = s.idxs ∧
  t.PL = s.PL ∧ t.DocCount = s.DocCount

theorem sameCore_refl (s : Bow) : sameCore s s :=
  ⟨rfl, rfl, rfl, rfl, rfl, rfl, rfl, rfl⟩

theorem sameCore_trans {s t u : Bow} (h1 : sameCore s t) (h2 : sameCore t u) : sameCore s u :=
  ⟨h2.1.trans h1.1, h2.2.1.trans h1.2.1, h2.2.2.1.trans h1.2.2.1, h2.2.2.2.1.trans h1.2.2.2.1,
   h2.2.2.2.2.1.trans h1.2.2.2.2.1, h2.2.2.2.2.2.1.trans h1.2.2.2.2.2.1,
   h2.2.2.2.2.2.2.1.trans h1.2.2.2.2.2.2.1, h2.2.2.2.2.2.2.2.trans h1.2.2.2.2.2.2.2⟩

theorem addWordLabel_ok (s : Bow) (w cnt l : Int) (h : (s.LWF l).isSome = true) :
    ∃ t, addWordLabel s w cnt l = Except.ok t ∧ sameCore s t ∧
      t.LabelDocCount = s.LabelDocCount ∧
      (∀ x, t.WordDocCount x = s.WordDocCount x + (if x = w then 1 else 0)) ∧
      (∀ x, (t.LWF x).isSome = (s.LWF x).isSome) ∧
      (∀ x y, LWFat t x y = LWFat s x y + (if x = l ∧ y = w then cnt else 0)) ∧
      (∀ x, t.LabelWordCount x = s.LabelWordCount x + (if x = l then cnt else 0)) := by
  obtain ⟨m, hm⟩ := Option.isSome_iff_exists.mp h
  refine ⟨{ s with
      WordDocCount := fun x => if x = w then s.WordDocCount x + 1 else s.WordDocCount x
      LWF := fun x => if x = l then some (fun y => if y = w then m y + cnt else m y) else s.LWF x
      LabelWordCount := fun x => if x = l then s.LabelWordCount x + cnt
                                 else s.LabelWordCount x }, ?_, ?_, rfl, ?_, ?_, ?_, ?_⟩
  · unfold addWordLabel
    simp only [hm]
  · exact ⟨rfl, rfl, rfl, rfl, rfl, rfl, rfl, rfl⟩
  · intro x
    by_cases hx : x = w <;> simp [hx]
  · intro x
    by_cases hx : x = l
    · subst hx
      simp [hm]
    · simp [hx]
  · intro x y
    unfold LWFat
    by_cases hx : x = l
    · subst hx
      simp only [if_true, hm]
      by_cases hy : y = w <;> simp [hy]
    · simp [hx]
  · intro x
    by_cases hx : x = l <;> simp [hx]

theorem addWordLabel_state_ldc (s : Bow) (w cnt l : Int) :
    sameCore s (exceptState (addWordLabel s w cnt l)) ∧
    (exceptState (addWordLabel s w cnt l)).LabelDocCount = s.LabelDocCount := by
  unfold addWordLabel
  cases hm : s.LWF l with
  | none => exact ⟨⟨rfl, rfl, rfl, rfl, rfl, rfl, rfl, rfl⟩, rfl⟩
  | some m => exact ⟨⟨rfl, rfl, rfl, rfl, rfl, rfl, rfl, rfl⟩, rfl⟩

/-- A generic preservation principle for the fallible folds: a field
picture `g` preserved by every step (also at the moment of a panic) is
preserved by the whole fold. -/
theorem exceptFoldl_state {α γ : Type} (f : Bow → α → Except Bow Bow) (g : Bow → γ)
    (hf : ∀ s a, g (exceptState (f s a)) = g s) :
    ∀ (as : List α) (s : Bow), g (exceptState (exceptFoldl f s as)) = g s := by
  intro as
  induction as with
  | nil => intro s; simp [exceptFoldl, exceptState]
  | cons a as ih =>
    intro s
    simp only [exceptFoldl]
    cases hfa : f s a with
    | error e =>
      have := hf s a
      rw [hfa] at this
      simpa [exceptState] using this
    | ok s' =>
      have := hf s a
      rw [hfa] at this
      simp only [exceptState] at this
      rw [ih s', this]

/-- Characterisation of the inner label loop of `Add` for one word entry,
when every label has an inner `LWF` map. -/
theorem innerFold_ok (w cnt : Int) (ls : List Int) :
    ∀ (s : Bow), (∀ l ∈ ls, (s.LWF l).isSome = true) →
    ∃ t, exceptFoldl (fun s' l => addWordLabel s' w cnt l) s ls = Except.ok t ∧
      sameCore s t ∧ t.LabelDocCount = s.LabelDocCount ∧
      (∀ x, t.WordDocCount x = s.WordDocCount x + (if x = w then (ls.length : Int) else 0)) ∧
      (∀ x, (t.LWF x).isSome = (s.LWF x).isSome) ∧
      (∀ x y, LWFat t x y = LWFat s x y + (if y = w then (ls.count x : Int) * cnt else 0)) ∧
      (∀ x, t.LabelWordCount x = s.LabelWordCount x + (ls.count x : Int) * cnt) := by
  induction ls with
  | nil =>
    intro s hls
    exact ⟨s, rfl, sameCore_refl s, rfl, by simp, by simp, by simp, by simp⟩
  | cons l0 ls ih =>
    intro s hls
    obtain ⟨t0, ht0, hc0, hldc0, hwdc0, hdom0, hlwf0, hlwc0⟩ :=
      addWordLabel_ok s w cnt l0 (hls l0 (List.mem_cons_self l0 ls))
    obtain ⟨t, ht, hc, hldc, hwdc, hdom, hlwf, hlwc⟩ := ih t0 (fun l hl =>
      (hdom0 l).trans (hls l (List.mem_cons_of_mem l0 hl)))
    refine ⟨t, ?_, sameCore_trans hc0 hc, hldc.trans hldc0, ?_, ?_, ?_, ?_⟩
    · simp only [exceptFoldl, ht0, ht]
    · intro x
      rw [hwdc x, hwdc0 x]
      by_cases hx : x = w <;> simp [hx] <;> push_cast <;> ring
    · intro x
      exact (hdom x).trans (hdom0 x)
    · intro x y
      rw [hlwf x y, hlwf0 x y]
      by_cases hy : y = w
      · subst hy
        simp only [if_true, List.count_cons, beq_iff_eq]
        by_cases hx : x = l0
        · subst hx
          simp only [eq_self_iff_true, and_true, if_true]
          push_cast
          ring
        · have hlx : ¬ (l0 = x) := fun h => hx h.symm
          simp only [hx, false_and, if_false, hlx]
          push_cast
          ring
      · simp [hy]
    · intro x
      rw [hlwc x, hlwc0 x, List.count_cons]
      simp only [beq_iff_eq]
      by_cases hx : x = l0
      · subst hx
        simp only [eq_self_iff_true, if_true]
        push_cast
        ring
      · have hlx : ¬ (l0 = x) := fun h => hx h.symm
        simp only [hx, if_false, hlx]
        push_cast
        ring

/-- Characterisation of the whole word/label counting loop of `Add`
(lines 142–158), when every label has an inner `LWF` map and the
frequency map has no duplicate keys. -/
theorem phase2_ok (ls : List Int) (freq : List (Int × Int)) :
    ∀ (s : Bow), (freq.map Prod.fst).Nodup → (∀ l ∈ ls, (s.LWF l).isSome = true) →
    ∃ t, exceptFoldl (fun s p => exceptFoldl (fun s' l => addWordLabel s' p.1 p.2 l) s ls)
          s freq = Except.ok t ∧
      sameCore s t ∧ t.LabelDocCount = s.LabelDocCount ∧
      (∀ x, t.WordDocCount x = s.WordDocCount x +
        (if x ∈ freq.map Prod.fst then (ls.length : Int) else 0)) ∧
      (∀ x, (t.LWF x).isSome = (s.LWF x).isSome) ∧
      (∀ x y, LWFat t x y = LWFat s x y + (ls.count x : Int) * freqAt freq y) ∧
      (∀ x, t.LabelWordCount x = s.LabelWordCount x + (ls.count x : Int) * freqTotal freq) := by
  induction freq with
  | nil =>
    intro s hnd hls
    exact ⟨s, rfl, sameCore_refl s, rfl, by simp, by simp, by simp [freqAt], by simp [freqTotal]⟩
  | cons p ps ih =>
    intro s hnd hls
    simp only [List.map_cons, List.nodup_cons] at hnd
    obtain ⟨t0, ht0, hc0, hldc0, hwdc0, hdom0, hlwf0, hlwc0⟩ := innerFold_ok p.1 p.2 ls s hls
    obtain ⟨t, ht, hc, hldc, hwdc, hdom, hlwf, hlwc⟩ := ih t0 hnd.2 (fun l hl =>
      (hdom0 l).trans (hls l hl))
    refine ⟨t, ?_, sameCore_trans hc0 hc, hldc.trans hldc0, ?_, ?_, ?_, ?_⟩
    · simp only [exceptFoldl, ht0, ht]
    · intro x
      rw [hwdc x, hwdc0 x]
      simp only [List.map_cons, List.mem_cons]
      by_cases hx : x = p.1
      · subst hx
        simp [hnd.1]
      · by_cases hm : x ∈ ps.map Prod.fst <;> simp [hx, hm]
    · intro x
      exact (hdom x).trans (hdom0 x)
    · intro x y
      rw [hlwf x y, hlwf0 x y]
      simp only [freqAt]
      by_cases hy : y = p.1
      · subst hy
        simp only [eq_self_iff_true, if_true]
        ring
      · have hpy : ¬ (p.1 = y) := fun h => hy h.symm
        simp only [hy, if_false, hpy]
        ring
    · intro x
      rw [hlwc x, hlwc0 x]
      have : freqTotal (p :: ps) = p.2 + freqTotal ps := by
        simp [freqTotal]
      rw [this]
      ring

theorem getD_set_char (xs : List Int) (n : Nat) (j : Nat) (hn : n < xs.length) :
    (xs.set n (xs.getD n 0 + 1)).getD j 0 =
      xs.getD j 0 + (if j = n then 1 else 0) := by
  by_cases hj : j = n
  · subst hj
    rw [List.getD_eq_getElem _ _ (show j < (xs.set j _).length by simpa using hn)]
    rw [List.getElem_set]
    simp
  · rcases Nat.lt_or_ge j xs.length with hlt | hge
    · rw [List.getD_eq_getElem _ _ (show j < (xs.set n _).length by simpa using hlt)]
      rw [List.getElem_set]
      rw [if_neg (fun h : n = j => hj h.symm), if_neg hj]
      rw [List.getD_eq_getElem _ _ hlt]
      simp
    · rw [List.getD_eq_default _ _ (by simpa using hge), List.getD_eq_default _ _ hge]
      simp [hj]

/-- Characterisation of the `LabelDocCount` loop of `Add`
(lines 160–163) when every label ID is within the bounds of the slice. -/
theorem ldcFold_ok (ls : List Int) :
    ∀ (s : Bow), (∀ l ∈ ls, 0 ≤ l ∧ l < (s.LabelDocCount.length : Int)) →
    ∃ t, exceptFoldl bumpLDC s ls = Except.ok t ∧
      sameCore s t ∧ t.WordDocCount = s.WordDocCount ∧ t.LWF = s.LWF ∧
      t.LabelWordCount = s.LabelWordCount ∧
      t.LabelDocCount.length = s.LabelDocCount.length ∧
      (∀ i : Nat, t.LabelDocCount.getD i 0 =
        s.LabelDocCount.getD i 0 + (ls.count ((i : Nat) : Int) : Int)) := by
  induction ls with
  | nil =>
    intro s hls
    exact ⟨s, rfl, sameCore_refl s, rfl, rfl, rfl, rfl, by simp⟩
  | cons l0 ls ih =>
    intro s hls
    obtain ⟨h0, hlen0⟩ := hls l0 (List.mem_cons_self l0 ls)
    have hstep : bumpLDC s l0 = Except.ok
        { s with LabelDocCount :=
            s.LabelDocCount.set l0.toNat (s.LabelDocCount.getD l0.toNat 0 + 1) } := by
      unfold bumpLDC
      rw [if_pos ⟨h0, hlen0⟩]
    obtain ⟨t, ht, hc, hwdc, hlwf, hlwc, hlen, hget⟩ := ih
      { s with LabelDocCount :=
          s.LabelDocCount.set l0.toNat (s.LabelDocCount.getD l0.toNat 0 + 1) }
      (fun l hl => by simpa using hls l (List.mem_cons_of_mem l0 hl))
    have hget' : ∀ i : Nat, t.LabelDocCount.getD i 0 =
        (s.LabelDocCount.set l0.toNat (s.LabelDocCount.getD l0.toNat 0 + 1)).getD i 0 +
          (ls.count ((i : Nat) : Int) : Int) := hget
    have hlen' : t.LabelDocCount.length = s.LabelDocCount.length := by
      rw [hlen]
      simp
    refine ⟨t, ?_, sameCore_trans ⟨rfl, rfl, rfl, rfl, rfl, rfl, rfl, rfl⟩ hc,
      hwdc, hlwf, hlwc, hlen', ?_⟩
    · simp only [exceptFoldl, hstep, ht]
    · intro i
      have hnlt : l0.toNat < s.LabelDocCount.length := by omega
      rw [hget' i, getD_set_char s.LabelDocCount l0.toNat i hnlt, List.count_cons]
      simp only [beq_iff_eq]
      by_cases hi : i = l0.toNat
      · have hl0 : l0 = (i : Int) := by omega
        rw [if_pos hi, if_pos hl0]
        push_cast
        ring
      · have hl0 : ¬ (l0 = (i : Int)) := by omega
        rw [if_neg hi, if_neg hl0]
        push_cast
        ring

/-! ### `UpdatePL` -/

/-- The eleven fields `UpdatePL` never writes. -/
def nonPLFrame (s t : Bow) : Prop :=
  t.Note = s.Note ∧ t.LabelNames = s.LabelNames ∧ t.LabelCount = s.LabelCount ∧
  t.Words = s.Words ∧ t.WordCount = s.WordCount ∧ t.WordDocCount = s.WordDocCount ∧
  t.DocCount = s.DocCount ∧ t.LWF = s.LWF ∧ t.LabelWordCount = s.LabelWordCount ∧
  t.LabelDocCount = s.LabelDocCount ∧ t.idxs = s.idxs

theorem nonPLFrame_refl (s : Bow) : nonPLFrame s s :=
  ⟨rfl, rfl, rfl, rfl, rfl, rfl, rfl, rfl, rfl, rfl, rfl⟩

theorem nonPLFrame_trans {s t u : Bow} (h1 : nonPLFrame s t) (h2 : nonPLFrame t u) :
    nonPLFrame s u := by
  obtain ⟨a1, a2, a3, a4, a5, a6, a7, a8, a9, a10, a11⟩ := h1
  obtain ⟨b1, b2, b3, b4, b5, b6, b7, b8, b9, b10, b11⟩ := h2
  exact ⟨b1.trans a1, b2.trans a2, b3.trans a3, b4.trans a4, b5.trans a5, b6.trans a6,
    b7.trans a7, b8.trans a8, b9.trans a9, b10.trans a10, b11.trans a11⟩

theorem updatePLStep_frame (s : Bow) (l : Nat) :
    nonPLFrame s (exceptState (updatePLStep s l)) ∧
    (exceptState (updatePLStep s l)).PL.length = s.PL.length := by
  unfold updatePLStep
  by_cases h1 : l < s.LabelDocCount.length
  · simp only [h1, if_true]
    by_cases h2 : s.LabelDocCount.getD l 0 + 1 > s.DocCount + s.LabelCount
    · simp only [h2, if_true, exceptState]
      exact ⟨nonPLFrame_refl s, trivial⟩
    · simp only [h2, if_false]
      by_cases h3 : l < s.PL.length
      · simp only [h3, if_true, exceptState]
        exact ⟨⟨rfl, rfl, rfl, rfl, rfl, rfl, rfl, rfl, rfl, rfl, rfl⟩, by simp⟩
      · simp only [h3, if_false, exceptState]
        exact ⟨nonPLFrame_refl s, trivial⟩
  · simp only [h1, if_false, exceptState]
    exact ⟨nonPLFrame_refl s, trivial⟩

theorem updatePLFold_frame (L : List Nat) :
    ∀ (s : Bow), nonPLFrame s (exceptState (exceptFoldl updatePLStep s L)) ∧
    (exceptState (exceptFoldl updatePLStep s L)).PL.length = s.PL.length := by
  induction L with
  | nil => intro s; exact ⟨nonPLFrame_refl s, rfl⟩
  | cons l L ih =>
    intro s
    simp only [exceptFoldl]
    cases hstep : updatePLStep s l with
    | error e =>
      have := updatePLStep_frame s l
      rw [hstep] at this
      simpa [exceptState] using this
    | ok s' =>
      have hframe := updatePLStep_frame s l
      rw [hstep] at hframe
      simp only [exceptState] at hframe
      obtain ⟨hf, hl⟩ := ih s'
      exact ⟨nonPLFrame_trans hframe.1 hf, hl.trans hframe.2⟩

theorem getD_set_general {α : Type} (xs : List α) (d : α) (n : Nat) (v : α) (j : Nat)
    (hn : n < xs.length) :
    (xs.set n v).getD j d = if j = n then v else xs.getD j d := by
  by_cases hj : j = n
  · subst hj
    rw [List.getD_eq_getElem _ _ (show j < (xs.set j _).length by simpa using hn)]
    rw [List.getElem_set]
    simp
  · rcases Nat.lt_or_ge j xs.length with hlt | hge
    · rw [List.getD_eq_getElem _ _ (show j < (xs.set n _).length by simpa using hlt)]
      rw [List.getElem_set]
      rw [if_neg (fun h : n = j => hj h.symm), if_neg hj]
      rw [List.getD_eq_getElem _ _ hlt]
    · rw [List.getD_eq_default _ _ (by simpa using hge), List.getD_eq_default _ _ hge]
      simp [hj]

theorem updatePLFold_ok (L : List Nat) :
    ∀ (s : Bow), L.Nodup →
    (∀ l ∈ L, l < s.LabelDocCount.length ∧
      s.LabelDocCount.getD l 0 + 1 ≤ s.DocCount + s.LabelCount ∧ l < s.PL.length) →
    ∃ t, exceptFoldl updatePLStep s L = Except.ok t ∧
      nonPLFrame s t ∧ t.PL.length = s.PL.length ∧
      (∀ i : Nat, t.PL.getD i 0 =
        if i ∈ L then ((s.LabelDocCount.getD i 0 : ℚ) + 1) /
          ((s.DocCount : ℚ) + (s.LabelCount : ℚ))
        else s.PL.getD i 0) := by
  induction L with
  | nil =>
    intro s hnd hcond
    exact ⟨s, rfl, nonPLFrame_refl s, rfl, by simp⟩
  | cons l0 L ih =>
    intro s hnd hcond
    simp only [List.nodup_cons] at hnd
    obtain ⟨hb1, hb2, hb3⟩ := hcond l0 (List.mem_cons_self l0 L)
    have hstep : updatePLStep s l0 = Except.ok
        { s with PL := s.PL.set l0 (((s.LabelDocCount.getD l0 0 : ℚ) + 1) /
            ((s.DocCount : ℚ) + (s.LabelCount : ℚ))) } := by
      unfold updatePLStep
      rw [if_pos hb1, if_neg (by omega), if_pos hb3]
    obtain ⟨t, ht, hf, hlen, hget⟩ := ih
      { s with PL := s.PL.set l0 (((s.LabelDocCount.getD l0 0 : ℚ) + 1) /
          ((s.DocCount : ℚ) + (s.LabelCount : ℚ))) }
      hnd.2
      (fun l hl => by simpa using hcond l (List.mem_cons_of_mem l0 hl))
    have hget' : ∀ i : Nat, t.PL.getD i 0 =
        if i ∈ L then ((s.LabelDocCount.getD i 0 : ℚ) + 1) /
          ((s.DocCount : ℚ) + (s.LabelCount : ℚ))
        else (s.PL.set l0 (((s.LabelDocCount.getD l0 0 : ℚ) + 1) /
          ((s.DocCount : ℚ) + (s.LabelCount : ℚ)))).getD i 0 := hget
    have hlen' : t.PL.length = s.PL.length := by
      rw [hlen]
      simp
    refine ⟨t, ?_, nonPLFrame_trans ⟨rfl, rfl, rfl, rfl, rfl, rfl, rfl, rfl, rfl, rfl, rfl⟩ hf,
      hlen', ?_⟩
    · simp only [exceptFoldl, hstep, ht]
    · intro i
      rw [hget' i]
      by_cases hiL : i ∈ L
      · have : i ∈ l0 :: L := List.mem_cons_of_mem l0 hiL
        rw [if_pos hiL, if_pos this]
      · rw [if_neg hiL, getD_set_general s.PL 0 l0 _ i hb3]
        by_cases hil : i = l0
        · subst hil
          rw [if_pos rfl, if_pos (List.mem_cons_self i L)]
        · rw [if_neg hil, if_neg (by
            intro hmem
            rcases List.mem_cons.mp hmem with h | h
            · exact hil h
            · exact hiL h)]

/-- Completed-run characterisation of `UpdatePL` from any state whose
slices have the right lengths and whose counters satisfy the guarded
bound. -/
theorem updatePL_ok (s : Bow)
    (h1 : s.LabelDocCount.length = s.LabelCount.toNat)
    (h2 : s.PL.length = s.LabelCount.toNat)
    (h3 : ∀ l : Nat, l < s.LabelCount.toNat →
      s.LabelDocCount.getD l 0 + 1 ≤ s.DocCount + s.LabelCount) :
    ∃ t, updatePLExec s = Except.ok t ∧ nonPLFrame s t ∧ t.PL.length = s.PL.length ∧
      (∀ i : Nat, i < s.LabelCount.toNat →
        t.PL.getD i 0 = ((s.LabelDocCount.getD i 0 : ℚ) + 1) /
          ((s.DocCount : ℚ) + (s.LabelCount : ℚ))) := by
  obtain ⟨t, ht, hf, hlen, hget⟩ := updatePLFold_ok (List.range s.LabelCount.toNat) s
    (List.nodup_range _)
    (fun l hl => by
      rw [List.mem_range] at hl
      exact ⟨by omega, h3 l hl, by omega⟩)
  refine ⟨t, ht, hf, hlen, ?_⟩
  intro i hi
  rw [hget i, if_pos (List.mem_range.mpr hi)]

/-! ### Assembled facts about `Add` -/

/-- The fields that the two counting loops of `Add` can never write,
bundled for the generic fold-preservation principle. -/
def gFrame (s : Bow) :
    String × List String × Int × List String × List ℚ × Int × List (String × Int) × Int :=
  (s.Note, s.LabelNames, s.LabelCount, s.Words, s.PL, s.DocCount, s.idxs, s.WordCount)

theorem addWordLabel_g (s : Bow) (w cnt l : Int) :
    gFrame (exceptState (addWordLabel s w cnt l)) = gFrame s := by
  obtain ⟨hc, _⟩ := addWordLabel_state_ldc s w cnt l
  obtain ⟨h1, h2, h3, h4, h5, h6, h7, h8⟩ := hc
  simp [gFrame, h1, h2, h3, h4, h5, h6, h7, h8]

theorem innerFold_g (w cnt : Int) (ls : List Int) (s : Bow) :
    gFrame (exceptState (exceptFoldl (fun s' l => addWordLabel s' w cnt l) s ls)) = gFrame s :=
  exceptFoldl_state _ gFrame (fun s' l => addWordLabel_g s' w cnt l) ls s

theorem phase2_g (ls : List Int) (freq : List (Int × Int)) (s : Bow) :
    gFrame (exceptState (exceptFoldl
      (fun s p => exceptFoldl (fun s' l => addWordLabel s' p.1 p.2 l) s ls) s freq)) =
      gFrame s :=
  exceptFoldl_state _ gFrame (fun s' p => innerFold_g p.1 p.2 ls s') freq s

theorem bumpLDC_g (s : Bow) (l : Int) : gFrame (exceptState (bumpLDC s l)) = gFrame s := by
  unfold bumpLDC
  by_cases h : 0 ≤ l ∧ l < (s.LabelDocCount.length : Int)
  · rw [if_pos h]
    rfl
  · rw [if_neg h]
    rfl

theorem ldcFold_g (ls : List Int) (s : Bow) :
    gFrame (exceptState (exceptFoldl bumpLDC s ls)) = gFrame s :=
  exceptFoldl_state _ gFrame bumpLDC_g ls s

/-- `LabelDocCount` is untouched by the word/label counting loop, on every
path. -/
theorem phase2_ldc (ls : List Int) (freq : List (Int × Int)) (s : Bow) :
    (exceptState (exceptFoldl
      (fun s p => exceptFoldl (fun s' l => addWordLabel s' p.1 p.2 l) s ls) s freq)).LabelDocCount
      = s.LabelDocCount := by
  refine exceptFoldl_state _ (fun s => s.LabelDocCount) ?_ freq s
  intro s' p
  refine exceptFoldl_state _ (fun s => s.LabelDocCount) ?_ ls s'
  intro s'' l
  exact (addWordLabel_state_ldc s'' p.1 p.2 l).2

/-- `Add` unfolded to its post-tokenisation shape. -/
theorem addExec_eq (conf : Config) (dd : Bow) (docId : String) (ws : List String)
    (ls : List Int) :
    addExec conf dd docId ws ls =
      (match exceptFoldl (fun s p => exceptFoldl (fun s' l => addWordLabel s' p.1 p.2 l) s ls)
          { (scanTokens conf dd ws [] []).1 with
            DocCount := (scanTokens conf dd ws [] []).1.DocCount + 1 }
          (scanTokens conf dd ws [] []).2.2 with
        | Except.error e => Except.error e
        | Except.ok s2 => exceptFoldl bumpLDC s2 ls) := rfl

theorem addTail_g (ls : List Int) (freq : List (Int × Int)) (s1 : Bow) :
    gFrame (exceptState
      (match exceptFoldl (fun s p => exceptFoldl (fun s' l => addWordLabel s' p.1 p.2 l) s ls)
          s1 freq with
        | Except.error e => Except.error e
        | Except.ok s2 => exceptFoldl bumpLDC s2 ls)) = gFrame s1 := by
  cases hp : exceptFoldl (fun s p => exceptFoldl (fun s' l => addWordLabel s' p.1 p.2 l) s ls)
      s1 freq with
  | error e =>
    have h := phase2_g ls freq s1
    rw [hp] at h
    simpa [exceptState] using h
  | ok s2 =>
    have h := phase2_g ls freq s1
    rw [hp] at h
    simp only [exceptState] at h
    exact (ldcFold_g ls s2).trans h

/-- Whatever happens inside `Add` — completed run or panic — `DocCount`
has been incremented exactly once, the scalar fields are untouched, and
the vocabulary is exactly the one the tokenisation loop produced. -/
theorem addEnd_frame (conf : Config) (dd : Bow) (docId : String) (ws : List String)
    (ls : List Int) :
    (exceptState (addExec conf dd docId ws ls)).Note = dd.Note ∧
    (exceptState (addExec conf dd docId ws ls)).LabelNames = dd.LabelNames ∧
    (exceptState (addExec conf dd docId ws ls)).LabelCount = dd.LabelCount ∧
    (exceptState (addExec conf dd docId ws ls)).Words = dd.Words ∧
    (exceptState (addExec conf dd docId ws ls)).PL = dd.PL ∧
    (exceptState (addExec conf dd docId ws ls)).DocCount = dd.DocCount + 1 ∧
    (exceptState (addExec conf dd docId ws ls)).idxs = (scanTokens conf dd ws [] []).1.idxs ∧
    (exceptState (addExec conf dd docId ws ls)).WordCount =
      (scanTokens conf dd ws [] []).1.WordCount := by
  obtain ⟨f1, f2, f3, f4, f5, f6, f7, f8, f9, f10⟩ := scan_frame conf ws dd [] []
  have hall : gFrame (exceptState (addExec conf dd docId ws ls)) =
      gFrame { (scanTokens conf dd ws [] []).1 with
        DocCount := (scanTokens conf dd ws [] []).1.DocCount + 1 } := by
    rw [addExec_eq]
    exact addTail_g ls (scanTokens conf dd ws [] []).2.2 _
  simp only [gFrame, Prod.mk.injEq] at hall
  obtain ⟨g1, g2, g3, g4, g5, g6, g7, g8⟩ := hall
  exact ⟨g1.trans f1, g2.trans f2, g3.trans f3, g4.trans f4, g5.trans f9,
    g6.trans (by rw [f6]), g7, g8⟩

/-- Completed-run characterisation of `Add` from a well-formed state with
in-range labels: every counter's exact delta. -/
theorem addExec_ok (conf : Config) (dd : Bow) (docId : String) (ws : List String)
    (ls : List Int) (hwf : BowWF dd) (hls : ∀ l ∈ ls, 0 ≤ l ∧ l < dd.LabelCount) :
    ∃ t, addExec conf dd docId ws ls = Except.ok t ∧
      t.Note = dd.Note ∧ t.LabelNames = dd.LabelNames ∧ t.LabelCount = dd.LabelCount ∧
      t.Words = dd.Words ∧ t.PL = dd.PL ∧
      t.idxs = (scanTokens conf dd ws [] []).1.idxs ∧
      t.WordCount = (scanTokens conf dd ws [] []).1.WordCount ∧
      t.DocCount = dd.DocCount + 1 ∧
      (∀ x, t.WordDocCount x = dd.WordDocCount x +
        (if x ∈ (scanTokens conf dd ws [] []).2.2.map Prod.fst then (ls.length : Int) else 0)) ∧
      (∀ x, (t.LWF x).isSome = (dd.LWF x).isSome) ∧
      (∀ x y, LWFat t x y = LWFat dd x y +
        (ls.count x : Int) * freqAt (scanTokens conf dd ws [] []).2.2 y) ∧
      (∀ x, t.LabelWordCount x = dd.LabelWordCount x +
        (ls.count x : Int) * freqTotal (scanTokens conf dd ws [] []).2.2) ∧
      t.LabelDocCount.length = dd.LabelDocCount.length ∧
      (∀ i : Nat, t.LabelDocCount.getD i 0 =
        dd.LabelDocCount.getD i 0 + (ls.count ((i : Nat) : Int) : Int)) := by
  obtain ⟨f1, f2, f3, f4, f5, f6, f7, f8, f9, f10⟩ := scan_frame conf ws dd [] []
  have hnd : (((scanTokens conf dd ws [] []).2.2).map Prod.fst).Nodup :=
    (scan_hist conf ws dd [] [] (by simp) (by simp) (fun x => by simp [freqAt]) (by
      simp [freqTotal])).1
  have hsome : ∀ l ∈ ls, (({ (scanTokens conf dd ws [] []).1 with
      DocCount := (scanTokens conf dd ws [] []).1.DocCount + 1 } : Bow).LWF l).isSome = true := by
    intro l hl
    show ((scanTokens conf dd ws [] []).1.LWF l).isSome = true
    rw [f7]
    exact (hwf.lwf_dom l).mpr (hls l hl)
  obtain ⟨t2, hp2, hc2, hldc2, hwdc2, hdom2, hlwf2, hlwc2⟩ :=
    phase2_ok ls (scanTokens conf dd ws [] []).2.2
      { (scanTokens conf dd ws [] []).1 with
        DocCount := (scanTokens conf dd ws [] []).1.DocCount + 1 } hnd hsome
  obtain ⟨c1, c2, c3, c4, c5, c6, c7, c8⟩ := hc2
  have hldc2' : t2.LabelDocCount = dd.LabelDocCount := by
    rw [hldc2]
    show (scanTokens conf dd ws [] []).1.LabelDocCount = dd.LabelDocCount
    exact f10
  have hbounds : ∀ l ∈ ls, 0 ≤ l ∧ l < (t2.LabelDocCount.length : Int) := by
    intro l hl
    have h := hls l hl
    rw [hldc2', hwf.ldc_len]
    have := hwf.lc_nonneg
    omega
  obtain ⟨t, hldcrun, hc3, hwdc3, hlwf3, hlwc3, hlen3, hget3⟩ := ldcFold_ok ls t2 hbounds
  obtain ⟨d1, d2, d3, d4, d5, d6, d7, d8⟩ := hc3
  refine ⟨t, ?_, d1.trans (c1.trans f1), d2.trans (c2.trans f2), d3.trans (c3.trans f3),
    d4.trans (c4.trans f4), d7.trans (c7.trans f9), d6.trans c6, d5.trans c5,
    ?_, ?_, ?_, ?_, ?_, ?_, ?_⟩
  · rw [addExec_eq, hp2]
    exact hldcrun
  · rw [d8, c8]
    show (scanTokens conf dd ws [] []).1.DocCount + 1 = dd.DocCount + 1
    rw [f6]
  · intro x
    rw [hwdc3, hwdc2 x]
    show (scanTokens conf dd ws [] []).1.WordDocCount x + _ = _
    rw [f5]
  · intro x
    have hdomeq : (t.LWF x).isSome = (t2.LWF x).isSome := by rw [hlwf3]
    rw [hdomeq, hdom2 x]
    show ((scanTokens conf dd ws [] []).1.LWF x).isSome = (dd.LWF x).isSome
    rw [f7]
  · intro x y
    have : LWFat t x y = LWFat t2 x y := by
      unfold LWFat
      rw [hlwf3]
    rw [this, hlwf2 x y]
    show LWFat (scanTokens conf dd ws [] []).1 x y + _ = _
    unfold LWFat
    rw [f7]
  · intro x
    rw [hlwc3, hlwc2 x]
    show (scanTokens conf dd ws [] []).1.LabelWordCount x + _ = _
    rw [f8]
  · rw [hlen3, hldc2']
  · intro i
    rw [hget3 i, hldc2']

theorem bowWF_new (note : String) (labelNames : List String) :
    BowWF (Bow.new note labelNames) := by
  refine ⟨?_, ?_, ?_, ?_, ?_, ?_, ?_, ?_⟩
  · simp [Bow.new]
  · simp [Bow.new]
  · simp [Bow.new]
  · intro l
    simp only [Bow.new]
    by_cases h : 0 ≤ l ∧ l < Int.ofNat labelNames.length
    · simp [h]
    · simp [h]
  · simp [Bow.new]
  · simp [Bow.new]
  · simp [Bow.new]
  · simp [Bow.new]

/-- A completed `Add` with in-range labels preserves well-formedness. -/
theorem addExec_wf (conf : Config) (dd : Bow) (docId : String) (ws : List String)
    (ls : List Int) (t : Bow) (hwf : BowWF dd) (hls : ∀ l ∈ ls, 0 ≤ l ∧ l < dd.LabelCount)
    (hok : addExec conf dd docId ws ls = Except.ok t) : BowWF t := by
  obtain ⟨t', hok', h1, h2, h3, h4, h5, h6, h7, h8, h9, h10, h11, h12, h13, h14⟩ :=
    addExec_ok conf dd docId ws ls hwf hls
  have ht : t = t' := by
    rw [hok] at hok'
    exact (Except.ok.injEq _ _).mp hok'.symm |>.symm
  subst ht
  have hswf := scan_wf conf ws dd [] [] hwf
  refine ⟨?_, ?_, ?_, ?_, ?_, ?_, ?_, ?_⟩
  · rw [h13, h3, hwf.ldc_len]
  · rw [h5, h3, hwf.pl_len]
  · rw [h3]
    exact hwf.lc_nonneg
  · intro l
    rw [h10 l, h3]
    exact hwf.lwf_dom l
  · rw [h8]
    have := hwf.dc_nonneg
    omega
  · rw [h7, h6]
    exact hswf.wc_idxs
  · rw [h6]
    exact hswf.idx_snds
  · rw [h6]
    exact hswf.idx_keys

theorem bumpLDC_ok_bound (s : Bow) (l : Int) (t : Bow) (h : bumpLDC s l = Except.ok t) :
    (0 ≤ l ∧ l < (s.LabelDocCount.length : Int)) ∧
    t.LabelDocCount.length = s.LabelDocCount.length := by
  unfold bumpLDC at h
  by_cases hc : 0 ≤ l ∧ l < (s.LabelDocCount.length : Int)
  · rw [if_pos hc] at h
    have ht := (Except.ok.injEq _ _).mp h
    refine ⟨hc, ?_⟩
    rw [← ht]
    simp
  · rw [if_neg hc] at h
    simp at h

theorem ldcFold_ok_bounds (ls : List Int) :
    ∀ (s t : Bow), exceptFoldl bumpLDC s ls = Except.ok t →
    ∀ l ∈ ls, 0 ≤ l ∧ l < (s.LabelDocCount.length : Int) := by
  induction ls with
  | nil => intro s t h l hl; simp at hl
  | cons l0 ls ih =>
    intro s t h l hl
    simp only [exceptFoldl] at h
    cases hstep : bumpLDC s l0 with
    | error e => rw [hstep] at h; simp at h
    | ok s0 =>
      rw [hstep] at h
      simp only at h
      obtain ⟨hb, hlen⟩ := bumpLDC_ok_bound s l0 s0 hstep
      rcases List.mem_cons.mp hl with rfl | hl'
      · exact hb
      · have := ih s0 t h l hl'
        rw [hlen] at this
        exact this

/-- With a well-formed receiver, `Add` never completes when some label is
out of range: the run panics. -/
theorem addExec_badlabel (conf : Config) (dd : Bow) (docId : String) (ws : List String)
    (ls : List Int) (hwf : BowWF dd) (l0 : Int) (hmem : l0 ∈ ls)
    (hbad : ¬ (0 ≤ l0 ∧ l0 < dd.LabelCount)) :
    exceptIsOk (addExec conf dd docId ws ls) = false := by
  cases hrun : addExec conf dd docId ws ls with
  | error e => rfl
  | ok t =>
    exfalso
    rw [addExec_eq] at hrun
    cases hp : exceptFoldl (fun s p => exceptFoldl (fun s' l => addWordLabel s' p.1 p.2 l) s ls)
        { (scanTokens conf dd ws [] []).1 with
          DocCount := (scanTokens conf dd ws [] []).1.DocCount + 1 }
        (scanTokens conf dd ws [] []).2.2 with
    | error e => rw [hp] at hrun; simp at hrun
    | ok s2 =>
      rw [hp] at hrun
      simp only at hrun
      have hbounds := ldcFold_ok_bounds ls s2 t hrun l0 hmem
      have hldc : s2.LabelDocCount = dd.LabelDocCount := by
        have h := phase2_ldc ls (scanTokens conf dd ws [] []).2.2
          { (scanTokens conf dd ws [] []).1 with
            DocCount := (scanTokens conf dd ws [] []).1.DocCount + 1 }
        rw [hp] at h
        simp only [exceptState] at h
        rw [h]
        exact (scan_frame conf ws dd [] []).2.2.2.2.2.2.2.2.2
      rw [hldc, hwf.ldc_len] at hbounds
      have := hwf.lc_nonneg
      exact hbad ⟨hbounds.1, by omega⟩

/-- From any completed `Add` (no well-formedness needed): the exact
`LabelDocCount` and `DocCount` deltas, with `PL` and the label set
untouched. -/
theorem addExec_ok_ldc (conf : Config) (dd : Bow) (docId : String) (ws : List String)
    (ls : List Int) (t : Bow) (hok : addExec conf dd docId ws ls = Except.ok t) :
    t.DocCount = dd.DocCount + 1 ∧ t.PL = dd.PL ∧ t.LabelCount = dd.LabelCount ∧
    t.LabelDocCount.length = dd.LabelDocCount.length ∧
    (∀ i : Nat, t.LabelDocCount.getD i 0 =
      dd.LabelDocCount.getD i 0 + (ls.count ((i : Nat) : Int) : Int)) := by
  have hframe := addEnd_frame conf dd docId ws ls
  rw [hok] at hframe
  simp only [exceptState] at hframe
  refine ⟨hframe.2.2.2.2.2.1, hframe.2.2.2.2.1, hframe.2.2.1, ?_, ?_⟩
  all_goals {
    rw [addExec_eq] at hok
    cases hp : exceptFoldl (fun s p => exceptFoldl (fun s' l => addWordLabel s' p.1 p.2 l) s ls)
        { (scanTokens conf dd ws [] []).1 with
          DocCount := (scanTokens conf dd ws [] []).1.DocCount + 1 }
        (scanTokens conf dd ws [] []).2.2 with
    | error e => rw [hp] at hok; simp at hok
    | ok s2 =>
      rw [hp] at hok
      simp only at hok
      have hbounds := ldcFold_ok_bounds ls s2 t hok
      obtain ⟨t', hrun', hc', hwdc', hlwf', hlwc', hlen', hget'⟩ := ldcFold_ok ls s2 hbounds
      have ht : t = t' := by
        rw [hok] at hrun'
        exact ((Except.ok.injEq _ _).mp hrun'.symm).symm
      subst ht
      have hldc : s2.LabelDocCount = dd.LabelDocCount := by
        have h := phase2_ldc ls (scanTokens conf dd ws [] []).2.2
          { (scanTokens conf dd ws [] []).1 with
            DocCount := (scanTokens conf dd ws [] []).1.DocCount + 1 }
        rw [hp] at h
        simp only [exceptState] at h
        rw [h]
        exact (scan_frame conf ws dd [] []).2.2.2.2.2.2.2.2.2
      rw [hldc] at hlen' hget'
      first
      | exact hlen'
      | exact hget'
  }

/-! ### `Predict` state effect -/

theorem updatePL_frame (s : Bow) :
    nonPLFrame s (exceptState (updatePLExec s)) ∧
    (exceptState (updatePLExec s)).PL.length = s.PL.length :=
  updatePLFold_frame (List.range s.LabelCount.toNat) s

theorem pldExec_state (s : Bow) (freq : List (Int × Int)) :
    (∀ e, pldExec s freq = Except.error e → nonPLFrame s e ∧ e.PL.length = s.PL.length) ∧
    (∀ t pld, pldExec s freq = Except.ok (t, pld) →
      nonPLFrame s t ∧ t.PL.length = s.PL.length) := by
  have hu := updatePL_frame s
  constructor
  · intro e he
    unfold pldExec at he
    cases h : updatePLExec s with
    | error e' =>
      rw [h] at he hu
      simp only at he
      simp only [exceptState] at hu
      obtain rfl : e' = e := (Except.error.injEq _ _).mp he
      exact hu
    | ok t =>
      rw [h] at he
      simp at he
  · intro t pld ht
    unfold pldExec at ht
    cases h : updatePLExec s with
    | error e' =>
      rw [h] at ht
      simp at ht
    | ok t' =>
      rw [h] at ht hu
      simp only [exceptState] at hu
      simp only [Except.ok.injEq, Prod.mk.injEq] at ht
      rw [← ht.1]
      exact hu

theorem predictExec_cases (conf : Config) (dd : Bow) (ws : List String) :
    (∃ e, predictExec conf dd ws = Except.error e ∧
      pldExec (predictScan conf dd ws []).1 (predictScan conf dd ws []).2 = Except.error e) ∨
    (∃ t pld, predictExec conf dd ws =
        Except.ok (t, argmaxLabel pld t.LabelCount, pld) ∧
      pldExec (predictScan conf dd ws []).1 (predictScan conf dd ws []).2 =
        Except.ok (t, pld)) := by
  rcases hq : pldExec (predictScan conf dd ws []).1 (predictScan conf dd ws []).2 with e | tp
  · left
    refine ⟨e, ?_, rfl⟩
    simp only [predictExec]
    rw [hq]
  · right
    refine ⟨tp.1, tp.2, ?_, rfl⟩
    simp only [predictExec]
    rw [hq]

theorem predictEnd_state (conf : Config) (dd : Bow) (ws : List String) :
    nonPLFrame (predictScan conf dd ws []).1 (predictEnd conf dd ws) ∧
    (predictEnd conf dd ws).PL.length = (predictScan conf dd ws []).1.PL.length := by
  rcases predictExec_cases conf dd ws with ⟨e, hpe, hq⟩ | ⟨t, pld, hpe, hq⟩
  · have h := (pldExec_state (predictScan conf dd ws []).1 (predictScan conf dd ws []).2).1 e hq
    unfold predictEnd
    rw [hpe]
    exact h
  · have h := (pldExec_state (predictScan conf dd ws []).1
      (predictScan conf dd ws []).2).2 t pld hq
    unfold predictEnd
    rw [hpe]
    exact h

theorem predictExec_ok_state (conf : Config) (dd : Bow) (ws : List String)
    (out : Bow × Int × List ℝ) (h : predictExec conf dd ws = Except.ok out) :
    nonPLFrame (predictScan conf dd ws []).1 out.1 ∧
    out.1.PL.length = (predictScan conf dd ws []).1.PL.length := by
  have hend : predictEnd conf dd ws = out.1 := by
    unfold predictEnd
    rw [h]
  have := predictEnd_state conf dd ws
  rw [hend] at this
  exact this

/-- The two components of the `Predict` tokenisation loop, as the shared
loop. -/
theorem predictScan_parts (conf : Config) (dd : Bow) (ws : List String) :
    (predictScan conf dd ws []).1 = (scanTokens conf dd ws [] []).1 ∧
    (predictScan conf dd ws []).2 = (scanTokens conf dd ws [] []).2.2 := by
  rw [predictScan_eq conf ws dd [] []]
  exact ⟨rfl, rfl⟩

/-! ### `updateWords` / `Save` -/

theorem getD_set_any {α : Type} (xs : List α) (d : α) (n : Nat) (v : α) (j : Nat) :
    (xs.set n v).getD j d = if j = n ∧ n < xs.length then v else xs.getD j d := by
  by_cases hn : n < xs.length
  · rw [getD_set_general xs d n v j hn]
    by_cases hj : j = n <;> simp [hj, hn]
  · rw [List.set_eq_of_length_le (Nat.le_of_not_lt hn)]
    simp [hn]

theorem foldl_set_length (m : List (String × Int)) :
    ∀ (base : List String),
    (m.foldl (fun ws p => ws.set p.2.toNat p.1) base).length = base.length := by
  induction m with
  | nil => intro base; rfl
  | cons p ps ih =>
    intro base
    simp only [List.foldl_cons]
    rw [ih (base.set p.2.toNat p.1)]
    simp

/-- Pointwise description of the word-table rebuild: with pairwise
distinct in-bounds write positions, position `i` holds the first entry
written there, or the base value. -/
theorem foldl_set_find (m : List (String × Int)) :
    ∀ (base : List String), (∀ p ∈ m, p.2.toNat < base.length) →
    (m.map (fun p => p.2.toNat)).Nodup →
    ∀ i : Nat, (m.foldl (fun ws p => ws.set p.2.toNat p.1) base).getD i "" =
      (match m.find? (fun p => p.2.toNat == i) with
       | some q => q.1
       | none => base.getD i "") := by
  induction m with
  | nil => intro base hb hnd i; rfl
  | cons p ps ih =>
    intro base hb hnd i
    simp only [List.map_cons, List.nodup_cons] at hnd
    simp only [List.foldl_cons]
    rw [ih (base.set p.2.toNat p.1)
      (fun q hq => by
        have := hb q (List.mem_cons_of_mem p hq)
        simpa using this)
      hnd.2]
    by_cases hpi : p.2.toNat = i
    · subst hpi
      have hfind : (p :: ps).find? (fun q => q.2.toNat == p.2.toNat) = some p :=
        List.find?_cons_of_pos ps (by simp)
      rw [hfind]
      have hnone : ps.find? (fun q => q.2.toNat == p.2.toNat) = none := by
        rw [List.find?_eq_none]
        intro q hq
        simp only [beq_iff_eq]
        intro hqp
        exact hnd.1 (hqp ▸ List.mem_map.mpr ⟨q, hq, rfl⟩)
      rw [hnone]
      rw [getD_set_any base "" p.2.toNat p.1 p.2.toNat]
      simp [hb p (List.mem_cons_self p ps)]
    · have hfind : (p :: ps).find? (fun q => q.2.toNat == i) =
          ps.find? (fun q => q.2.toNat == i) :=
        List.find?_cons_of_neg ps (by simpa using hpi)
      rw [hfind]
      cases hf : ps.find? (fun q => q.2.toNat == i) with
      | some q => rfl
      | none =>
        rw [getD_set_any base "" p.2.toNat p.1 i]
        rw [if_neg (fun h : i = p.2.toNat ∧ p.2.toNat < base.length => hpi h.1.symm)]

/-- In an index whose values are the positions `j, j+1, …`, the `find?`
for position `i` returns exactly entry `i - j`. -/
theorem find_at_index (m : List (String × Int)) :
    ∀ (j : Nat), m.map Prod.snd = (List.range' j m.length).map Int.ofNat →
    ∀ i : Nat, j ≤ i → i < j + m.length →
    m.find? (fun p => p.2.toNat == i) = some (m.getD (i - j) ("", 0)) := by
  induction m with
  | nil =>
    intro j hsnd i h1 h2
    simp at h2
    omega
  | cons p ps ih =>
    intro j hsnd i h1 h2
    simp only [List.map_cons, List.length_cons] at hsnd
    rw [List.range'_succ j ps.length 1, List.map_cons] at hsnd
    have hp2 : p.2 = Int.ofNat j := (List.cons.injEq _ _ _ _).mp hsnd |>.1
    have hps : ps.map Prod.snd = (List.range' (j + 1) ps.length).map Int.ofNat :=
      (List.cons.injEq _ _ _ _).mp hsnd |>.2
    by_cases hij : i = j
    · subst hij
      have : (fun q : String × Int => q.2.toNat == i) p = true := by
        simp [hp2]
      rw [List.find?_cons_of_pos ps this]
      simp
    · have : ¬ ((fun q : String × Int => q.2.toNat == i) p = true) := by
        simp [hp2]
        omega
      rw [List.find?_cons_of_neg ps (by simpa using this)]
      rw [ih (j + 1) hps i (by omega) (by simp only [List.length_cons] at h2; omega)]
      have : i - j = (i - (j + 1)) + 1 := by omega
      rw [this]
      rfl

/-- `buildWords` under the vocabulary invariant: the rebuilt table has one
slot per entry, holding that entry's word. -/
theorem buildWords_spec (m : List (String × Int))
    (hsnd : m.map Prod.snd = (List.range m.length).map Int.ofNat) :
    (buildWords m).length = m.length ∧
    (∀ i : Nat, i < m.length → (buildWords m).getD i "" = (m.getD i ("", 0)).1) := by
  have hbound : ∀ p ∈ m, p.2.toNat < (List.replicate m.length "").length := by
    intro p hp
    have : p.2 ∈ m.map Prod.snd := List.mem_map.mpr ⟨p, hp, rfl⟩
    rw [hsnd] at this
    simp only [List.mem_map, List.mem_range] at this
    obtain ⟨k, hk, hkk⟩ := this
    rw [List.length_replicate, ← hkk]
    simpa using hk
  have hnodup : (m.map (fun p => p.2.toNat)).Nodup := by
    have : (m.map (fun p => p.2.toNat)) = (m.map Prod.snd).map Int.toNat := by
      rw [List.map_map]
      rfl
    rw [this, hsnd, List.map_map]
    have : (Int.toNat ∘ Int.ofNat) = id := by
      funext k
      simp
    rw [this, List.map_id]
    exact List.nodup_range _
  constructor
  · unfold buildWords
    rw [foldl_set_length m (List.replicate m.length "")]
    simp
  · intro i hi
    unfold buildWords
    rw [foldl_set_find m (List.replicate m.length "") hbound hnodup i]
    rw [find_at_index m 0 (by rw [← List.range_eq_range']; exact hsnd) i (by omega)
      (by omega)]
    simp

/-- The entry at a valid position of a range-valued index carries exactly
that position as its word ID. -/
theorem idx_entry_snd (m : List (String × Int))
    (hsnd : m.map Prod.snd = (List.range m.length).map Int.ofNat)
    (i : Nat) (hi : i < m.length) : (m.getD i ("", 0)).2 = Int.ofNat i := by
  have hlen : i < (m.map Prod.snd).length := by simpa using hi
  have h1 : (m.map Prod.snd).getD i 0 = (m.getD i ("", 0)).2 := by
    rw [List.getD_eq_getElem _ _ hlen, List.getD_eq_getElem _ _ hi]
    simp
  have hlen2 : i < ((List.range m.length).map Int.ofNat).length := by simpa using hi
  have h2 : ((List.range m.length).map Int.ofNat).getD i 0 = Int.ofNat i := by
    rw [List.getD_eq_getElem _ _ hlen2]
    simp
  rw [← h1, hsnd, h2]

/-! ### Reachability invariants -/

/-- The forward word table is consistent with the reverse index:
`idxs[Words[i]] == i` for every valid position. -/
def WordsOK (s : Bow) : Prop :=
  ∀ i : Nat, i < s.Words.length → idxLookup s.idxs (s.Words.getD i "") = some (Int.ofNat i)

theorem wordsOK_of_extends {s t : Bow} (hW : t.Words = s.Words)
    (hext : ∀ w i, idxLookup s.idxs w = some i → idxLookup t.idxs w = some i)
    (h : WordsOK s) : WordsOK t := by
  intro i hi
  rw [hW] at hi ⊢
  exact hext _ _ (h i hi)

theorem getD_mem {α : Type} (m : List α) (d : α) (i : Nat) (hi : i < m.length) :
    m.getD i d ∈ m := by
  rw [List.getD_eq_getElem _ _ hi]
  exact List.getElem_mem hi

theorem updateWords_wordsOK (s : Bow) (hwf : BowWF s) : WordsOK (updateWords s) := by
  intro i hi
  have hlen : (updateWords s).Words.length = s.idxs.length := by
    show (buildWords s.idxs).length = s.idxs.length
    exact (buildWords_spec s.idxs hwf.idx_snds).1
  rw [hlen] at hi
  have hgd : (updateWords s).Words.getD i "" = (s.idxs.getD i ("", 0)).1 := by
    show (buildWords s.idxs).getD i "" = (s.idxs.getD i ("", 0)).1
    exact (buildWords_spec s.idxs hwf.idx_snds).2 i hi
  rw [hgd]
  have hmem : s.idxs.getD i ("", 0) ∈ s.idxs := getD_mem s.idxs ("", 0) i hi
  have hsnd : (s.idxs.getD i ("", 0)).2 = Int.ofNat i := idx_entry_snd s.idxs hwf.idx_snds i hi
  show idxLookup s.idxs (s.idxs.getD i ("", 0)).1 = some (Int.ofNat i)
  rw [← hsnd]
  exact idxLookup_of_mem_nodup s.idxs _ _ (by simpa using hmem) hwf.idx_keys

theorem updateWords_wf (s : Bow) (hwf : BowWF s) : BowWF (updateWords s) :=
  ⟨hwf.ldc_len, hwf.pl_len, hwf.lc_nonneg, hwf.lwf_dom, hwf.dc_nonneg, hwf.wc_idxs,
    hwf.idx_snds, hwf.idx_keys⟩

/-- A completed `Add` on a well-formed state implies every label was in
range (otherwise the run would have panicked). -/
theorem addExec_ok_labels (conf : Config) (dd : Bow) (docId : String) (ws : List String)
    (ls : List Int) (t : Bow) (hwf : BowWF dd) (hok : addExec conf dd docId ws ls = Except.ok t) :
    ∀ l ∈ ls, 0 ≤ l ∧ l < dd.LabelCount := by
  intro l hl
  by_contra hbad
  have h := addExec_badlabel conf dd docId ws ls hwf l hl hbad
  rw [hok] at h
  simp [exceptIsOk] at h

theorem predictExec_ok_wf (conf : Config) (dd : Bow) (ws : List String)
    (out : Bow × Int × List ℝ) (hwf : BowWF dd) (hok : predictExec conf dd ws = Except.ok out) :
    BowWF out.1 := by
  obtain ⟨hf, hlen⟩ := predictExec_ok_state conf dd ws out hok
  obtain ⟨hps1, _⟩ := predictScan_parts conf dd ws
  have hswf : BowWF (predictScan conf dd ws []).1 := by
    rw [hps1]
    exact scan_wf conf ws dd [] [] hwf
  obtain ⟨b1, b2, b3, b4, b5, b6, b7, b8, b9, b10, b11⟩ := hf
  refine ⟨?_, ?_, ?_, ?_, ?_, ?_, ?_, ?_⟩
  · rw [b10, b3, hswf.ldc_len]
  · rw [hlen, b3, hswf.pl_len]
  · rw [b3]; exact hswf.lc_nonneg
  · intro l; rw [b8, b3]; exact hswf.lwf_dom l
  · rw [b7]; exact hswf.dc_nonneg
  · rw [b5, b11]; exact hswf.wc_idxs
  · rw [b11]; exact hswf.idx_snds
  · rw [b11]; exact hswf.idx_keys

/-- Invariant for claim C7: well-formedness plus word-table consistency,
preserved by every operation. -/
theorem reachC7_inv (dd : Bow) (h : ReachVia stepC7 dd) : BowWF dd ∧ WordsOK dd := by
  induction h with
  | base note names =>
    refine ⟨bowWF_new note names, ?_⟩
    intro i hi
    simp [Bow.new] at hi
  | step hreach hstep ih =>
    rename_i s t
    obtain ⟨hwf, hwords⟩ := ih
    rcases hstep with ⟨conf, docId, ws, ls, hok⟩ | ⟨conf, ws, out, hok, rfl⟩ | rfl
    · have hls := addExec_ok_labels conf s docId ws ls t hwf hok
      have hframe := addEnd_frame conf s docId ws ls
      rw [hok] at hframe
      simp only [exceptState] at hframe
      refine ⟨addExec_wf conf s docId ws ls t hwf hls hok, ?_⟩
      refine wordsOK_of_extends hframe.2.2.2.1 ?_ hwords
      intro w i hw
      rw [hframe.2.2.2.2.2.2.1]
      exact scan_extends conf ws s [] [] w i hw
    · obtain ⟨hf, hlen⟩ := predictExec_ok_state conf s ws out hok
      obtain ⟨hps1, _⟩ := predictScan_parts conf s ws
      obtain ⟨f1, f2, f3, f4, f5, f6, f7, f8, f9, f10⟩ := scan_frame conf ws s [] []
      refine ⟨predictExec_ok_wf conf s ws out hwf hok, ?_⟩
      refine wordsOK_of_extends (hf.2.2.2.1.trans (by rw [hps1]; exact f4)) ?_ hwords
      intro w i hw
      rw [hf.2.2.2.2.2.2.2.2.2.2, hps1]
      exact scan_extends conf ws s [] [] w i hw
    · exact ⟨updateWords_wf s hwf, updateWords_wordsOK s hwf⟩

/-- Invariant for claim C5: slice lengths match the label count, and every
per-label document count is bounded by the total document count. -/
def InvC5 (s : Bow) : Prop :=
  s.LabelDocCount.length = s.LabelCount.toNat ∧ s.PL.length = s.LabelCount.toNat ∧
  (∀ i : Nat, i < s.LabelDocCount.length → s.LabelDocCount.getD i 0 ≤ s.DocCount)

theorem reachC5_inv (dd : Bow) (h : ReachVia stepC5 dd) : InvC5 dd := by
  induction h with
  | base note names =>
    refine ⟨by simp [Bow.new], by simp [Bow.new], ?_⟩
    intro i hi
    simp only [Bow.new] at hi ⊢
    rw [List.getD_eq_getElem _ _ hi]
    simp
  | step hreach hstep ih =>
    rename_i s t
    obtain ⟨hlen1, hlen2, hbound⟩ := ih
    rcases hstep with ⟨conf, docId, ws, ls, hne, hnd, hls, hok⟩ | ⟨conf, ws, out, hok, rfl⟩
    · obtain ⟨hdc, hpl, hlc, hldclen, hldcget⟩ :=
        addExec_ok_ldc conf s docId ws ls t hok
      refine ⟨by rw [hldclen, hlc, hlen1], by rw [hpl, hlc, hlen2], ?_⟩
      intro i hi
      rw [hldclen] at hi
      rw [hldcget i, hdc]
      have hcount : (ls.count ((i : Nat) : Int)) ≤ 1 := List.nodup_iff_count_le_one.mp hnd _
      have := hbound i hi
      omega
    · obtain ⟨hf, hlen⟩ := predictExec_ok_state conf s ws out hok
      obtain ⟨hps1, _⟩ := predictScan_parts conf s ws
      obtain ⟨f1, f2, f3, f4, f5, f6, f7, f8, f9, f10⟩ := scan_frame conf ws s [] []
      obtain ⟨b1, b2, b3, b4, b5, b6, b7, b8, b9, b10, b11⟩ := hf
      have hldc : out.1.LabelDocCount = s.LabelDocCount := by rw [b10, hps1, f10]
      have hdc : out.1.DocCount = s.DocCount := by rw [b7, hps1, f6]
      have hlc : out.1.LabelCount = s.LabelCount := by rw [b3, hps1, f3]
      have hpllen : out.1.PL.length = s.PL.length := by rw [hlen, hps1, f9]
      refine ⟨by rw [hldc, hlc, hlen1], by rw [hpllen, hlc, hlen2], ?_⟩
      intro i hi
      rw [hldc] at hi ⊢
      rw [hdc]
      exact hbound i hi

theorem sum_freqAt (freq : List (Int × Int)) (n : Nat)
    (hb : ∀ k ∈ freq.map Prod.fst, 0 ≤ k ∧ k < (n : Int)) :
    (∑ i in Finset.range n, freqAt freq (Int.ofNat i)) = freqTotal freq := by
  induction freq with
  | nil => simp [freqAt, freqTotal]
  | cons p ps ih =>
    have hp := hb p.1 (by simp)
    have hsum : (∑ i in Finset.range n, freqAt (p :: ps) (Int.ofNat i)) =
        (∑ i in Finset.range n,
          ((if p.1 = Int.ofNat i then p.2 else 0) + freqAt ps (Int.ofNat i))) := rfl
    rw [hsum, Finset.sum_add_distrib,
      ih (fun k hk => hb k (by rw [List.map_cons]; exact List.mem_cons_of_mem _ hk))]
    have hsingle : (∑ i in Finset.range n, (if p.1 = Int.ofNat i then p.2 else 0)) = p.2 := by
      rw [Finset.sum_eq_single p.1.toNat]
      · rw [if_pos (by simp only [Int.ofNat_eq_coe]; omega)]
      · intro b hb' hne
        rw [if_neg]
        intro heq
        simp only [Int.ofNat_eq_coe] at heq
        omega
      · intro hnotmem
        exact absurd (Finset.mem_range.mpr (by omega)) hnotmem
    rw [hsingle]
    simp [freqTotal]

/-- Invariant for claim C3: well-formedness, vanishing of `LWF` outside
the vocabulary, and the row-sum identity
`Σ LWF[l][·] = LabelWordCount[l]`. -/
def InvC3 (s : Bow) : Prop :=
  BowWF s ∧ (∀ l y : Int, (y < 0 ∨ s.WordCount ≤ y) → LWFat s l y = 0) ∧
  (∀ l : Int, (∑ i in Finset.range s.WordCount.toNat, LWFat s l (Int.ofNat i)) =
    s.LabelWordCount l)

theorem reachC3_inv (dd : Bow) (h : ReachVia addStepC3 dd) : InvC3 dd := by
  induction h with
  | base note names =>
    refine ⟨bowWF_new note names, ?_, ?_⟩
    · intro l y hy
      unfold LWFat
      simp only [Bow.new]
      by_cases hc : 0 ≤ l ∧ l < Int.ofNat names.length
      · rw [if_pos hc]
      · rw [if_neg hc]
    · intro l
      show (∑ i in Finset.range (0 : Int).toNat, LWFat (Bow.new note names) l (Int.ofNat i))
        = (0 : Int)
      simp
  | step hreach hstep ih =>
    rename_i s t
    obtain ⟨hwf, hzero, hsum⟩ := ih
    obtain ⟨conf, docId, ws, ls, hne, hls, hok⟩ := hstep
    obtain ⟨t', hok', h1, h2, h3, h4, h5, h6, h7, h8, h9, h10, h11, h12, h13, h14⟩ :=
      addExec_ok conf s docId ws ls hwf hls
    have ht : t = t' := by
      rw [hok] at hok'
      exact ((Except.ok.injEq _ _).mp hok'.symm).symm
    subst ht
    have hwcnn : 0 ≤ s.WordCount := by
      rw [hwf.wc_idxs]
      simp only [Int.ofNat_eq_coe]
      omega
    have hwcmono : s.WordCount ≤ (scanTokens conf s ws [] []).1.WordCount :=
      scan_wc_mono conf ws s [] []
    have hist := scan_hist conf ws s [] [] (by simp) (by simp) (fun x => by simp [freqAt])
      (by simp [freqTotal])
    have hbounds := scan_seq_bounds conf ws s [] [] hwf (by simp)
    have hkeyb : ∀ k ∈ (scanTokens conf s ws [] []).2.2.map Prod.fst,
        0 ≤ k ∧ k < (scanTokens conf s ws [] []).1.WordCount := by
      intro k hk
      exact hbounds k ((hist.2.1 k).mp hk)
    refine ⟨addExec_wf conf s docId ws ls t hwf hls hok, ?_, ?_⟩
    · intro l y hy
      rw [h11 l y]
      have hz : LWFat s l y = 0 := by
        apply hzero
        rcases hy with hy | hy
        · exact Or.inl hy
        · right
          rw [h7] at hy
          omega
      have hfz : freqAt (scanTokens conf s ws [] []).2.2 y = 0 := by
        apply freqAt_eq_zero_of_not_mem
        intro hmem
        have hb := hkeyb y hmem
        rw [h7] at hy
        rcases hy with hy | hy <;> omega
      rw [hz, hfz]
      ring
    · intro l
      have hstep1 : (∑ i in Finset.range t.WordCount.toNat, LWFat t l (Int.ofNat i)) =
          (∑ i in Finset.range t.WordCount.toNat, LWFat s l (Int.ofNat i)) +
          (ls.count l : Int) *
            (∑ i in Finset.range t.WordCount.toNat,
              freqAt (scanTokens conf s ws [] []).2.2 (Int.ofNat i)) := by
        rw [Finset.mul_sum, ← Finset.sum_add_distrib]
        exact Finset.sum_congr rfl (fun i _ => h11 l (Int.ofNat i))
      have hA : (∑ i in Finset.range t.WordCount.toNat, LWFat s l (Int.ofNat i)) =
          s.LabelWordCount l := by
        rw [← hsum l]
        symm
        apply Finset.sum_subset
        · apply Finset.range_subset.mpr
          rw [h7]
          omega
        · intro x hx hnx
          rw [Finset.mem_range] at hx
          rw [Finset.mem_range] at hnx
          apply hzero
          right
          simp only [Int.ofNat_eq_coe]
          omega
      have hB : (∑ i in Finset.range t.WordCount.toNat,
          freqAt (scanTokens conf s ws [] []).2.2 (Int.ofNat i)) =
          freqTotal (scanTokens conf s ws [] []).2.2 := by
        apply sum_freqAt
        intro k hk
        have hb := hkeyb k hk
        rw [← h7] at hb
        have : (0 : Int) ≤ t.WordCount := by
          rw [h7]
          omega
        exact ⟨hb.1, by omega⟩
      rw [hstep1, hA, hB, h12 l]

/-! ### Helpers for whole-state equality, and concrete fixtures -/

theorem LWF_ext {t1 t2 : Bow} (hdom : ∀ l, (t1.LWF l).isSome = (t2.LWF l).isSome)
    (hval : ∀ l w, LWFat t1 l w = LWFat t2 l w) : t1.LWF = t2.LWF := by
  funext l
  cases h1 : t1.LWF l with
  | none =>
    cases h2 : t2.LWF l with
    | none => rfl
    | some m2 =>
      have h := hdom l
      rw [h1, h2] at h
      simp at h
  | some m1 =>
    cases h2 : t2.LWF l with
    | none =>
      have h := hdom l
      rw [h1, h2] at h
      simp at h
    | some m2 =>
      congr 1
      funext y
      have h := hval l y
      unfold LWFat at h
      rw [h1, h2] at h
      exact h

theorem list_eq_of_getD {xs ys : List Int} (hlen : xs.length = ys.length)
    (h : ∀ i : Nat, xs.getD i 0 = ys.getD i 0) : xs = ys := by
  apply List.ext_getElem hlen
  intro i h1 h2
  have hi := h i
  rw [List.getD_eq_getElem _ _ h1, List.getD_eq_getElem _ _ h2] at hi
  exact hi

/-- A stop-word-free configuration (`Init` with the zero `Config`, i.e.
`makeDefaultConfig`). -/
def conf0 : Config := ⟨false, [], []⟩

/-- A one-label corpus fresh from `New`. -/
def bow1 : Bow := Bow.new "nb" ["x"]

/-- A two-label corpus fresh from `New`. -/
def bow2 : Bow := Bow.new "nb" ["x", "y"]

/-- `bow1` with the words `a` and `b` already in the vocabulary. -/
def bow8 : Bow := (scanTokens conf0 bow1 ["a", "b"] [] []).1

/-! ### The claims -/

/-- C1: after `Add(id, words, labels)` with a non-empty in-range label
list, `WordDocCount[wordID]` of each distinct word ID of the filtered
document (the keys of the per-document frequency map) increases by exactly
`len(labels)` — once per (document, label) pair, not by 1 per document. -/
theorem c1_wordDocCount_per_label (conf : Config) (dd : Bow) (docId : String)
    (ws : List String) (ls : List Int) (hwf : BowWF dd) (hne : ls ≠ [])
    (hls : ∀ l ∈ ls, 0 ≤ l ∧ l < dd.LabelCount) :
    ∃ t, addExec conf dd docId ws ls = Except.ok t ∧
      ∀ w ∈ (scanTokens conf dd ws [] []).2.2.map Prod.fst,
        t.WordDocCount w = dd.WordDocCount w + (ls.length : Int) := by
  obtain ⟨t, hok, h1, h2, h3, h4, h5, h6, h7, h8, h9, h10, h11, h12, h13, h14⟩ :=
    addExec_ok conf dd docId ws ls hwf hls
  refine ⟨t, hok, ?_⟩
  intro w hw
  rw [h9 w, if_pos hw]

theorem c1_witness :
    BowWF bow2 ∧ ([0, 1] : List Int) ≠ [] ∧
    (∀ l ∈ ([0, 1] : List Int), 0 ≤ l ∧ l < bow2.LabelCount) ∧
    (∃ t, addExec conf0 bow2 "doc" ["w"] [0, 1] = Except.ok t ∧
      ∀ w ∈ (scanTokens conf0 bow2 ["w"] [] []).2.2.map Prod.fst,
        t.WordDocCount w = bow2.WordDocCount w + (([0, 1] : List Int).length : Int)) :=
  ⟨bowWF_new "nb" ["x", "y"], by decide, by decide,
    c1_wordDocCount_per_label conf0 bow2 "doc" ["w"] [0, 1]
      (bowWF_new "nb" ["x", "y"]) (by decide) (by decide)⟩

/-- C3: after any sequence of `Add` calls with non-empty in-range label
lists starting from `New`, the sum of `LWF[l][wordID]` over all word IDs
equals `LabelWordCount[l]` for every in-range label `l` (all entries
outside the vocabulary range are 0, so the finite sum is the sum over all
word IDs). -/
theorem c3_lwf_row_sum (dd : Bow) (h : ReachVia addStepC3 dd) (l : Int)
    (hl : 0 ≤ l ∧ l < dd.LabelCount) :
    (∑ i in Finset.range dd.WordCount.toNat, LWFat dd l (Int.ofNat i)) =
      dd.LabelWordCount l ∧
    (∀ y : Int, (y < 0 ∨ dd.WordCount ≤ y) → LWFat dd l y = 0) := by
  obtain ⟨hwf, hzero, hsum⟩ := reachC3_inv dd h
  exact ⟨hsum l, fun y hy => hzero l y hy⟩

theorem c3_witness :
    ReachVia addStepC3 bow1 ∧ (0 ≤ (0 : Int) ∧ (0 : Int) < bow1.LabelCount) ∧
    ((∑ i in Finset.range bow1.WordCount.toNat, LWFat bow1 0 (Int.ofNat i)) =
      bow1.LabelWordCount 0 ∧
    (∀ y : Int, (y < 0 ∨ bow1.WordCount ≤ y) → LWFat bow1 0 y = 0)) :=
  ⟨ReachVia.base "nb" ["x"], by decide,
    c3_lwf_row_sum bow1 (ReachVia.base "nb" ["x"]) 0 (by decide)⟩

/-- C4 counterexample: with a well-formed one-label corpus, `Add` with the
out-of-range label 1 fails (panics), but only after `DocCount` has been
incremented, `WordDocCount` bumped, and the word registered — the claim
that the operation is rejected before any mutation is false on the code. -/
theorem c4_counterexample :
    (¬ (0 ≤ (1 : Int) ∧ (1 : Int) < bow1.LabelCount)) ∧
    exceptIsOk (addExec conf0 bow1 "doc" ["w"] [1]) = false ∧
    bow1.DocCount = 0 ∧
    (exceptState (addExec conf0 bow1 "doc" ["w"] [1])).DocCount = 1 ∧
    bow1.WordDocCount 0 = 0 ∧
    (exceptState (addExec conf0 bow1 "doc" ["w"] [1])).WordDocCount 0 = 1 ∧
    idxLookup bow1.idxs "w" = none ∧
    idxLookup (exceptState (addExec conf0 bow1 "doc" ["w"] [1])).idxs "w" = some 0 := by
  refine ⟨by decide, by decide, by decide, by decide, by decide, by decide, by decide,
    by decide⟩

/-- C4 amended: `Add` performs no up-front validation.  With an
out-of-range label the run fails by a runtime panic inside the counting
loops, but only after `DocCount` has already been incremented and the
vocabulary grown — the failure is not atomic. -/
theorem c4_amended_no_atomic_reject (conf : Config) (dd : Bow) (docId : String)
    (ws : List String) (ls : List Int) (hwf : BowWF dd) (l0 : Int) (hmem : l0 ∈ ls)
    (hbad : ¬ (0 ≤ l0 ∧ l0 < dd.LabelCount)) :
    exceptIsOk (addExec conf dd docId ws ls) = false ∧
    (exceptState (addExec conf dd docId ws ls)).DocCount = dd.DocCount + 1 ∧
    (exceptState (addExec conf dd docId ws ls)).idxs =
      (scanTokens conf dd ws [] []).1.idxs := by
  refine ⟨addExec_badlabel conf dd docId ws ls hwf l0 hmem hbad, ?_, ?_⟩
  · exact (addEnd_frame conf dd docId ws ls).2.2.2.2.2.1
  · exact (addEnd_frame conf dd docId ws ls).2.2.2.2.2.2.1

theorem c4_amended_witness :
    BowWF bow1 ∧ (1 : Int) ∈ ([1] : List Int) ∧
    (¬ (0 ≤ (1 : Int) ∧ (1 : Int) < bow1.LabelCount)) ∧
    (exceptIsOk (addExec conf0 bow1 "doc" ["w"] [1]) = false ∧
     (exceptState (addExec conf0 bow1 "doc" ["w"] [1])).DocCount = bow1.DocCount + 1 ∧
     (exceptState (addExec conf0 bow1 "doc" ["w"] [1])).idxs =
       (scanTokens conf0 bow1 ["w"] [] []).1.idxs) :=
  ⟨bowWF_new "nb" ["x"], by decide, by decide,
    c4_amended_no_atomic_reject conf0 bow1 "doc" ["w"] [1] (bowWF_new "nb" ["x"]) 1
      (by decide) (by decide)⟩

/-- C5: on every state reachable from `New` by `Add` calls with non-empty
duplicate-free in-range label lists and by `Predict` calls, `UpdatePL`
never reaches its internal-consistency fatal branch
(`LabelDocCount[l] + 1 ≤ DocCount + LabelCount` for every label), and it
completes setting `PL[l] = (LabelDocCount[l]+1) / (DocCount+LabelCount)`
for every label (float64 division modelled as exact rational division). -/
theorem c5_updatePL_never_fatal (dd : Bow) (h : ReachVia stepC5 dd) :
    (∀ l : Nat, l < dd.LabelCount.toNat →
      dd.LabelDocCount.getD l 0 + 1 ≤ dd.DocCount + dd.LabelCount) ∧
    ∃ t, updatePLExec dd = Except.ok t ∧
      (∀ l : Nat, l < dd.LabelCount.toNat →
        t.PL.getD l 0 = ((dd.LabelDocCount.getD l 0 : ℚ) + 1) /
          ((dd.DocCount : ℚ) + (dd.LabelCount : ℚ))) := by
  obtain ⟨hlen1, hlen2, hbound⟩ := reachC5_inv dd h
  have h3 : ∀ l : Nat, l < dd.LabelCount.toNat →
      dd.LabelDocCount.getD l 0 + 1 ≤ dd.DocCount + dd.LabelCount := by
    intro l hl
    have hb := hbound l (by rw [hlen1]; exact hl)
    have hlc : (1 : Int) ≤ dd.LabelCount := by omega
    omega
  obtain ⟨t, ht, hf, hlen, hget⟩ := updatePL_ok dd hlen1 hlen2 h3
  exact ⟨h3, t, ht, hget⟩

theorem c5_witness :
    ReachVia stepC5 bow2 ∧
    ((∀ l : Nat, l < bow2.LabelCount.toNat →
      bow2.LabelDocCount.getD l 0 + 1 ≤ bow2.DocCount + bow2.LabelCount) ∧
    ∃ t, updatePLExec bow2 = Except.ok t ∧
      (∀ l : Nat, l < bow2.LabelCount.toNat →
        t.PL.getD l 0 = ((bow2.LabelDocCount.getD l 0 : ℚ) + 1) /
          ((bow2.DocCount : ℚ) + (bow2.LabelCount : ℚ)))) :=
  ⟨ReachVia.base "nb" ["x", "y"],
    c5_updatePL_never_fatal bow2 (ReachVia.base "nb" ["x", "y"])⟩

/-- C7: after every sequence of completed operations (`Add`, `Predict`,
`Save`) from `New`: no word string is ever assigned two distinct IDs (the
reverse index has no duplicate keys and re-resolving a word returns the
same ID), and the forward table satisfies `idxs[Words[i]] == i` at every
index of `Words`. -/
theorem c7_vocabulary_consistent (dd : Bow) (h : ReachVia stepC7 dd) :
    (dd.idxs.map Prod.fst).Nodup ∧
    (∀ w : String, (resolve (resolve dd w).1 w).2 = (resolve dd w).2) ∧
    (∀ i : Nat, i < dd.Words.length →
      idxLookup dd.idxs (dd.Words.getD i "") = some (Int.ofNat i)) := by
  obtain ⟨hwf, hwords⟩ := reachC7_inv dd h
  exact ⟨hwf.idx_keys, fun w => resolve_twice dd w, hwords⟩

theorem c7_witness :
    ReachVia stepC7 (updateWords bow1) ∧
    (((updateWords bow1).idxs.map Prod.fst).Nodup ∧
    (∀ w : String, (resolve (resolve (updateWords bow1) w).1 w).2 =
      (resolve (updateWords bow1) w).2) ∧
    (∀ i : Nat, i < (updateWords bow1).Words.length →
      idxLookup (updateWords bow1).idxs ((updateWords bow1).Words.getD i "") =
        some (Int.ofNat i))) :=
  ⟨ReachVia.step (ReachVia.base "nb" ["x"]) (Or.inr (Or.inr rfl)),
    c7_vocabulary_consistent (updateWords bow1)
      (ReachVia.step (ReachVia.base "nb" ["x"]) (Or.inr (Or.inr rfl)))⟩

/-- C9: `Predict` leaves every label and word statistic unchanged —
`DocCount`, `LabelDocCount`, `LWF`, `LabelWordCount`, `WordDocCount`,
`LabelNames` and `LabelCount` keep their values (whether the run completes
or panics inside `UpdatePL`) — while the vocabulary may only grow: old
entries keep their IDs, `WordCount` does not decrease, and every kept
token of the document is afterwards in the vocabulary. -/
theorem c9_predict_frame (conf : Config) (dd : Bow) (ws : List String) :
    (predictEnd conf dd ws).DocCount = dd.DocCount ∧
    (predictEnd conf dd ws).LabelDocCount = dd.LabelDocCount ∧
    (predictEnd conf dd ws).LWF = dd.LWF ∧
    (predictEnd conf dd ws).LabelWordCount = dd.LabelWordCount ∧
    (predictEnd conf dd ws).WordDocCount = dd.WordDocCount ∧
    (predictEnd conf dd ws).LabelNames = dd.LabelNames ∧
    (predictEnd conf dd ws).LabelCount = dd.LabelCount ∧
    (∀ w i, idxLookup dd.idxs w = some i →
      idxLookup (predictEnd conf dd ws).idxs w = some i) ∧
    dd.WordCount ≤ (predictEnd conf dd ws).WordCount ∧
    (∀ w ∈ ws, keepToken conf w = true →
      (idxLookup (predictEnd conf dd ws).idxs w).isSome = true) := by
  obtain ⟨hf, hlen⟩ := predictEnd_state conf dd ws
  obtain ⟨hps1, _⟩ := predictScan_parts conf dd ws
  obtain ⟨f1, f2, f3, f4, f5, f6, f7, f8, f9, f10⟩ := scan_frame conf ws dd [] []
  obtain ⟨b1, b2, b3, b4, b5, b6, b7, b8, b9, b10, b11⟩ := hf
  have hidxs : (predictEnd conf dd ws).idxs = (scanTokens conf dd ws [] []).1.idxs := by
    rw [b11, hps1]
  refine ⟨by rw [b7, hps1, f6], by rw [b10, hps1, f10], by rw [b8, hps1, f7],
    by rw [b9, hps1, f8], by rw [b6, hps1, f5], by rw [b2, hps1, f2],
    by rw [b3, hps1, f3], ?_, ?_, ?_⟩
  · intro w i hw
    rw [hidxs]
    exact scan_extends conf ws dd [] [] w i hw
  · rw [b5, hps1]
    exact scan_wc_mono conf ws dd [] []
  · intro w hw hk
    rw [hidxs]
    exact scan_keeps conf ws dd [] [] w hw hk

/-- C10: `Add` with an empty label list is silently accepted: the run
completes, `DocCount` still increases by 1 and unseen kept tokens are
still assigned word IDs, while `WordDocCount`, `LWF`, `LabelWordCount` and
`LabelDocCount` are all left unchanged. -/
theorem c10_empty_labels_accepted (conf : Config) (dd : Bow) (docId : String)
    (ws : List String) :
    ∃ t, addExec conf dd docId ws [] = Except.ok t ∧
      t.DocCount = dd.DocCount + 1 ∧
      t.WordDocCount = dd.WordDocCount ∧ t.LWF = dd.LWF ∧
      t.LabelWordCount = dd.LabelWordCount ∧ t.LabelDocCount = dd.LabelDocCount ∧
      (∀ w i, idxLookup dd.idxs w = some i → idxLookup t.idxs w = some i) ∧
      (∀ w ∈ ws, keepToken conf w = true → (idxLookup t.idxs w).isSome = true) := by
  obtain ⟨f1, f2, f3, f4, f5, f6, f7, f8, f9, f10⟩ := scan_frame conf ws dd [] []
  have hnd : (((scanTokens conf dd ws [] []).2.2).map Prod.fst).Nodup :=
    (scan_hist conf ws dd [] [] (by simp) (by simp) (fun x => by simp [freqAt]) (by
      simp [freqTotal])).1
  obtain ⟨t2, hp2, hc2, hldc2, hwdc2, hdom2, hlwf2, hlwc2⟩ :=
    phase2_ok [] (scanTokens conf dd ws [] []).2.2
      { (scanTokens conf dd ws [] []).1 with
        DocCount := (scanTokens conf dd ws [] []).1.DocCount + 1 } hnd (by simp)
  obtain ⟨t, hldcrun, hc3, hwdc3, hlwf3, hlwc3, hlen3, hget3⟩ :=
    ldcFold_ok [] t2 (by simp)
  obtain ⟨c1, c2, c3, c4, c5, c6, c7, c8⟩ := hc2
  have hok : addExec conf dd docId ws [] = Except.ok t := by
    rw [addExec_eq, hp2]
    exact hldcrun
  have hidxs : t.idxs = (scanTokens conf dd ws [] []).1.idxs := by
    rw [hc3.2.2.2.2.2.1, c6]
  refine ⟨t, hok, ?_, ?_, ?_, ?_, ?_, ?_, ?_⟩
  · rw [hc3.2.2.2.2.2.2.2, c8]
    show (scanTokens conf dd ws [] []).1.DocCount + 1 = dd.DocCount + 1
    rw [f6]
  · funext x
    rw [hwdc3, hwdc2 x]
    show (scanTokens conf dd ws [] []).1.WordDocCount x + _ = _
    rw [f5]
    simp
  · apply LWF_ext
    · intro l
      rw [hlwf3, hdom2 l]
      show ((scanTokens conf dd ws [] []).1.LWF l).isSome = (dd.LWF l).isSome
      rw [f7]
    · intro l w
      have h1 : LWFat t l w = LWFat t2 l w := by
        unfold LWFat
        rw [hlwf3]
      rw [h1, hlwf2 l w]
      show LWFat (scanTokens conf dd ws [] []).1 l w + _ = _
      unfold LWFat
      rw [f7]
      simp
  · funext x
    rw [hlwc3, hlwc2 x]
    show (scanTokens conf dd ws [] []).1.LabelWordCount x + _ = _
    rw [f8]
    simp
  · apply list_eq_of_getD
    · rw [hlen3, hldc2]
      show (scanTokens conf dd ws [] []).1.LabelDocCount.length = dd.LabelDocCount.length
      rw [f10]
    · intro i
      rw [hget3 i, hldc2]
      show (scanTokens conf dd ws [] []).1.LabelDocCount.getD i 0 + _ = _
      rw [f10]
      simp
  · intro w i hw
    rw [hidxs]
    exact scan_extends conf ws dd [] [] w i hw
  · intro w hw hk
    rw [hidxs]
    exact scan_keeps conf ws dd [] [] w hw hk

/-- Re-tokenising the same document in any state carrying the vocabulary
produced by the first tokenisation changes nothing and reproduces the same
`seq` and frequency map. -/
theorem scan_rescan (conf : Config) (dd u : Bow) (ws : List String)
    (hu : u.idxs = (scanTokens conf dd ws [] []).1.idxs) :
    scanTokens conf u ws [] [] =
      (u, (scanTokens conf dd ws [] []).2.1, (scanTokens conf dd ws [] []).2.2) := by
  have hknown : ∀ w ∈ ws, keepToken conf w = true → (idxLookup u.idxs w).isSome = true := by
    intro w hw hk
    rw [hu]
    exact scan_keeps conf ws dd [] [] w hw hk
  rw [scan_known conf ws u [] [] hknown]
  obtain ⟨hs1, hs2⟩ := scan_seq conf ws dd [] []
  rw [hu, ← hs1, ← hs2]

/-- C2: accumulating one document with label list `[a, b]` (`a ≠ b`, both
in range) produces exactly the same per-label counters, word-document
counters and vocabulary as accumulating the same document twice, once with
`[a]` and once with `[b]`; the only difference is that `DocCount` grows by
1 in the first case and by 2 in the second. -/
theorem c2_label_set_split (conf : Config) (dd : Bow) (docId : String) (ws : List String)
    (a b : Int) (hwf : BowWF dd) (hab : a ≠ b)
    (ha : 0 ≤ a ∧ a < dd.LabelCount) (hb : 0 ≤ b ∧ b < dd.LabelCount) :
    ∃ t1 u t2,
      addExec conf dd docId ws [a, b] = Except.ok t1 ∧
      addExec conf dd docId ws [a] = Except.ok u ∧
      addExec conf u docId ws [b] = Except.ok t2 ∧
      t2.LabelDocCount = t1.LabelDocCount ∧
      (∀ l w, LWFat t2 l w = LWFat t1 l w) ∧
      (∀ l, t2.LabelWordCount l = t1.LabelWordCount l) ∧
      (∀ w, t2.WordDocCount w = t1.WordDocCount w) ∧
      t2.idxs = t1.idxs ∧ t2.WordCount = t1.WordCount ∧ t2.Words = t1.Words ∧
      t2.PL = t1.PL ∧ t2.Note = t1.Note ∧ t2.LabelNames = t1.LabelNames ∧
      t2.LabelCount = t1.LabelCount ∧
      t1.DocCount = dd.DocCount + 1 ∧ t2.DocCount = dd.DocCount + 2 := by
  have hlsab : ∀ l ∈ ([a, b] : List Int), 0 ≤ l ∧ l < dd.LabelCount := by
    intro l hl
    rcases List.mem_cons.mp hl with rfl | hl
    · exact ha
    · rcases List.mem_cons.mp hl with rfl | hl
      · exact hb
      · simp at hl
  have hlsa : ∀ l ∈ ([a] : List Int), 0 ≤ l ∧ l < dd.LabelCount := by
    intro l hl
    rcases List.mem_cons.mp hl with rfl | hl
    · exact ha
    · simp at hl
  obtain ⟨t1, hok1, a1, a2, a3, a4, a5, a6, a7, a8, a9, a10, a11, a12, a13, a14⟩ :=
    addExec_ok conf dd docId ws [a, b] hwf hlsab
  obtain ⟨u, hoku, u1, u2, u3, u4, u5, u6, u7, u8, u9, u10, u11, u12, u13, u14⟩ :=
    addExec_ok conf dd docId ws [a] hwf hlsa
  have huwf : BowWF u := addExec_wf conf dd docId ws [a] u hwf hlsa hoku
  have hlsb : ∀ l ∈ ([b] : List Int), 0 ≤ l ∧ l < u.LabelCount := by
    intro l hl
    rcases List.mem_cons.mp hl with rfl | hl
    · rw [u3]
      exact hb
    · simp at hl
  obtain ⟨t2, hok2, v1, v2, v3, v4, v5, v6, v7, v8, v9, v10, v11, v12, v13, v14⟩ :=
    addExec_ok conf u docId ws [b] huwf hlsb
  have hscan2 := scan_rescan conf dd u ws u6
  have hsu1 : (scanTokens conf u ws [] []).1 = u := by rw [hscan2]
  have hsu2 : (scanTokens conf u ws [] []).2.2 = (scanTokens conf dd ws [] []).2.2 := by
    rw [hscan2]
  rw [hsu1] at v6 v7
  have hcount : ∀ x : Int, (([a, b] : List Int)).count x = ([a] : List Int).count x +
      ([b] : List Int).count x := fun x => List.count_append x [a] [b]
  refine ⟨t1, u, t2, hok1, hoku, hok2, ?_, ?_, ?_, ?_, ?_, ?_, ?_, ?_, ?_, ?_, ?_, ?_, ?_⟩
  · apply list_eq_of_getD
    · rw [v13, u13, a13]
    · intro i
      rw [v14 i, u14 i, a14 i, hcount]
      push_cast
      ring
  · intro l w
    rw [v11 l w, hsu2, u11 l w, a11 l w, hcount]
    push_cast
    ring
  · intro l
    rw [v12 l, hsu2, u12 l, a12 l, hcount]
    push_cast
    ring
  · intro w
    rw [v9 w, hsu2, u9 w, a9 w]
    by_cases hm : w ∈ (scanTokens conf dd ws [] []).2.2.map Prod.fst
    · rw [if_pos hm, if_pos hm, if_pos hm]
      simp
      ring
    · rw [if_neg hm, if_neg hm, if_neg hm]
      ring
  · rw [v6, u6, a6]
  · rw [v7, u7, a7]
  · rw [v4, u4, a4]
  · rw [v5, u5, a5]
  · rw [v1, u1, a1]
  · rw [v2, u2, a2]
  · rw [v3, u3, a3]
  · exact a8
  · rw [v8, u8]
    ring

theorem c2_witness :
    BowWF bow2 ∧ (0 : Int) ≠ 1 ∧
    (0 ≤ (0 : Int) ∧ (0 : Int) < bow2.LabelCount) ∧
    (0 ≤ (1 : Int) ∧ (1 : Int) < bow2.LabelCount) ∧
    (∃ t1 u t2,
      addExec conf0 bow2 "doc" ["w", "v", "w"] [0, 1] = Except.ok t1 ∧
      addExec conf0 bow2 "doc" ["w", "v", "w"] [0] = Except.ok u ∧
      addExec conf0 u "doc" ["w", "v", "w"] [1] = Except.ok t2 ∧
      t2.LabelDocCount = t1.LabelDocCount ∧
      (∀ l w, LWFat t2 l w = LWFat t1 l w) ∧
      (∀ l, t2.LabelWordCount l = t1.LabelWordCount l) ∧
      (∀ w, t2.WordDocCount w = t1.WordDocCount w) ∧
      t2.idxs = t1.idxs ∧ t2.WordCount = t1.WordCount ∧ t2.Words = t1.Words ∧
      t2.PL = t1.PL ∧ t2.Note = t1.Note ∧ t2.LabelNames = t1.LabelNames ∧
      t2.LabelCount = t1.LabelCount ∧
      t1.DocCount = bow2.DocCount + 1 ∧ t2.DocCount = bow2.DocCount + 2) :=
  ⟨bowWF_new "nb" ["x", "y"], by decide, by decide, by decide,
    c2_label_set_split conf0 bow2 "doc" ["w", "v", "w"] 0 1 (bowWF_new "nb" ["x", "y"])
      (by decide) (by decide) (by decide)⟩

/-- C8 counterexample: from a fresh corpus, `Add` of `["a", "b"]` and of
its permutation `["b", "a"]` produce different corpus states — fresh word
IDs are assigned in first-occurrence order, so `"a"` gets ID 0 in one run
and ID 1 in the other.  The claim that any permutation of the document
yields the same resulting state is false on the code. -/
theorem c8_counterexample :
    (["a", "b"] : List String).Perm ["b", "a"] ∧
    idxLookup (addEnd conf0 bow1 "doc" ["a", "b"] [0]).idxs "a" = some 0 ∧
    idxLookup (addEnd conf0 bow1 "doc" ["b", "a"] [0]).idxs "a" = some 1 ∧
    addEnd conf0 bow1 "doc" ["a", "b"] [0] ≠ addEnd conf0 bow1 "doc" ["b", "a"] [0] := by
  refine ⟨by decide, by decide, by decide, ?_⟩
  intro h
  have h1 : idxLookup (addEnd conf0 bow1 "doc" ["a", "b"] [0]).idxs "a" = some 0 := by decide
  have h2 : idxLookup (addEnd conf0 bow1 "doc" ["b", "a"] [0]).idxs "a" = some 1 := by decide
  rw [h] at h1
  rw [h1] at h2
  simp at h2

/-- C8 amended: the outcome of `Add` depends only on the frequency
multiset of the filtered tokens provided every filtered token is already
in the vocabulary (and the labels are in range, so the run completes):
then any permutation of the document produces the identical corpus state.
With previously unseen tokens, permutations may assign different fresh
word IDs, so the states can differ (see the counterexample). -/
theorem c8_amended_perm_of_known (conf : Config) (dd : Bow) (docId : String)
    (ws ws' : List String) (ls : List Int) (hwf : BowWF dd) (hperm : ws.Perm ws')
    (hknown : ∀ w ∈ ws, keepToken conf w = true → (idxLookup dd.idxs w).isSome = true)
    (hls : ∀ l ∈ ls, 0 ≤ l ∧ l < dd.LabelCount) :
    addExec conf dd docId ws ls = addExec conf dd docId ws' ls := by
  have hknown' : ∀ w ∈ ws', keepToken conf w = true →
      (idxLookup dd.idxs w).isSome = true :=
    fun w hw hk => hknown w (hperm.mem_iff.mpr hw) hk
  have hscan1 := scan_known conf ws dd [] [] hknown
  have hscan2 := scan_known conf ws' dd [] [] hknown'
  have hids : (lookIds conf dd.idxs ws).Perm (lookIds conf dd.idxs ws') :=
    (hperm.filter _).map _
  have hist1 := scan_hist conf ws dd [] [] (by simp) (by simp) (fun x => by simp [freqAt])
    (by simp [freqTotal])
  have hist2 := scan_hist conf ws' dd [] [] (by simp) (by simp) (fun x => by simp [freqAt])
    (by simp [freqTotal])
  have hseq1 : (scanTokens conf dd ws [] []).2.1 = lookIds conf dd.idxs ws := by
    rw [hscan1]
    simp
  have hseq2 : (scanTokens conf dd ws' [] []).2.1 = lookIds conf dd.idxs ws' := by
    rw [hscan2]
    simp
  have hstate1 : (scanTokens conf dd ws [] []).1 = dd := by rw [hscan1]
  have hstate2 : (scanTokens conf dd ws' [] []).1 = dd := by rw [hscan2]
  have hkeys : ∀ x, (x ∈ (scanTokens conf dd ws [] []).2.2.map Prod.fst) ↔
      (x ∈ (scanTokens conf dd ws' [] []).2.2.map Prod.fst) := by
    intro x
    rw [hist1.2.1 x, hist2.2.1 x, hseq1, hseq2]
    exact hids.mem_iff
  have hfreqAt : ∀ y, freqAt (scanTokens conf dd ws [] []).2.2 y =
      freqAt (scanTokens conf dd ws' [] []).2.2 y := by
    intro y
    rw [hist1.2.2.1 y, hist2.2.2.1 y, hseq1, hseq2]
    exact_mod_cast hids.count_eq y
  have htotal : freqTotal (scanTokens conf dd ws [] []).2.2 =
      freqTotal (scanTokens conf dd ws' [] []).2.2 := by
    rw [hist1.2.2.2, hist2.2.2.2, hseq1, hseq2]
    simp [hids.length_eq]
  obtain ⟨t1, hok1, a1, a2, a3, a4, a5, a6, a7, a8, a9, a10, a11, a12, a13, a14⟩ :=
    addExec_ok conf dd docId ws ls hwf hls
  obtain ⟨t2, hok2, b1, b2, b3, b4, b5, b6, b7, b8, b9, b10, b11, b12, b13, b14⟩ :=
    addExec_ok conf dd docId ws' ls hwf hls
  rw [hstate1] at a6 a7
  rw [hstate2] at b6 b7
  have hteq : t1 = t2 := by
    apply Bow.ext
    · exact a1.trans b1.symm
    · exact a2.trans b2.symm
    · exact a3.trans b3.symm
    · exact a4.trans b4.symm
    · exact a7.trans b7.symm
    · funext w
      rw [a9 w, b9 w]
      by_cases hm : w ∈ (scanTokens conf dd ws [] []).2.2.map Prod.fst
      · rw [if_pos hm, if_pos ((hkeys w).mp hm)]
      · rw [if_neg hm, if_neg (fun hc => hm ((hkeys w).mpr hc))]
    · exact a8.trans b8.symm
    · apply LWF_ext
      · intro l
        rw [a10 l, b10 l]
      · intro l w
        rw [a11 l w, b11 l w, hfreqAt w]
    · funext l
      rw [a12 l, b12 l, htotal]
    · exact a5.trans b5.symm
    · apply list_eq_of_getD
      · rw [a13, b13]
      · intro i
        rw [a14 i, b14 i]
    · exact a6.trans b6.symm
  rw [hok1, hok2, hteq]

theorem c8_amended_witness :
    BowWF bow8 ∧ (["a", "b"] : List String).Perm ["b", "a"] ∧
    (∀ w ∈ (["a", "b"] : List String), keepToken conf0 w = true →
      (idxLookup bow8.idxs w).isSome = true) ∧
    (∀ l ∈ ([0] : List Int), 0 ≤ l ∧ l < bow8.LabelCount) ∧
    addExec conf0 bow8 "doc" ["a", "b"] [0] = addExec conf0 bow8 "doc" ["b", "a"] [0] :=
  ⟨scan_wf conf0 ["a", "b"] bow1 [] [] (bowWF_new "nb" ["x"]), by decide, by decide,
    by decide,
    c8_amended_perm_of_known conf0 bow8 "doc" ["a", "b"] ["b", "a"] [0]
      (scan_wf conf0 ["a", "b"] bow1 [] [] (bowWF_new "nb" ["x"])) (by decide) (by decide)
      (by decide)⟩

theorem foldl_add_pwl (t : Bow) (l : Int) (wfreq : List (Int × Int)) :
    ∀ init : ℝ, wfreq.foldl (fun acc p => acc + PWL t l p.1) init =
      init + ((wfreq.map Prod.fst).map (PWL t l)).sum := by
  induction wfreq with
  | nil => intro init; simp
  | cons p ps ih =>
    intro init
    simp only [List.foldl_cons, List.map_cons, List.sum_cons]
    rw [ih (init + PWL t l p.1)]
    ring

theorem pldScores_getD (s : Bow) (wfreq : List (Int × Int)) (l : Nat)
    (hl : l < s.LabelCount.toNat) :
    (pldScores s wfreq).getD l 0 =
      Real.exp (Real.log (((s.PL.getD l 0 : ℚ) : ℝ)) +
        ((wfreq.map Prod.fst).map (PWL s (Int.ofNat l))).sum) := by
  unfold pldScores
  have h1 : l < ((List.range s.LabelCount.toNat).map (fun j =>
      Real.exp (wfreq.foldl (fun acc p => acc + PWL s (Int.ofNat j) p.1)
        (Real.log (((s.PL.getD j 0 : ℚ) : ℝ)))))).length := by
    simpa using hl
  rw [List.getD_eq_getElem _ _ h1]
  simp only [List.getElem_map, List.getElem_range]
  rw [foldl_add_pwl]

theorem pldScores_length (s : Bow) (wfreq : List (Int × Int)) :
    (pldScores s wfreq).length = s.LabelCount.toNat := by
  unfold pldScores
  simp

theorem pldScores_sum (s : Bow) (wfreq : List (Int × Int)) :
    (pldScores s wfreq).foldl (fun a b => a + b) 0 =
      ∑ j in Finset.range s.LabelCount.toNat,
        Real.exp (Real.log (((s.PL.getD j 0 : ℚ) : ℝ)) +
          ((wfreq.map Prod.fst).map (PWL s (Int.ofNat j))).sum) := by
  have h0 : (pldScores s wfreq).foldl (fun a b => a + b) 0 = (pldScores s wfreq).sum :=
    List.sum_eq_foldl.symm
  rw [h0]
  unfold pldScores
  rw [← List.sum_toFinset _ (List.nodup_range _)]
  have hfs : (List.range s.LabelCount.toNat).toFinset = Finset.range s.LabelCount.toNat := by
    ext x
    simp
  rw [hfs]
  apply Finset.sum_congr rfl
  intro j hj
  rw [foldl_add_pwl]

theorem pldVec_getD (s : Bow) (wfreq : List (Int × Int)) (l : Nat)
    (hl : l < s.LabelCount.toNat) :
    (pldVec s wfreq).getD l 0 =
      (pldScores s wfreq).getD l 0 /
        (pldScores s wfreq).foldl (fun a b => a + b) 0 := by
  unfold pldVec
  have h1 : l < ((pldScores s wfreq).map (fun x =>
      x / (pldScores s wfreq).foldl (fun a b => a + b) 0)).length := by
    simp only [List.length_map, pldScores_length]
    exact hl
  rw [List.getD_eq_getElem _ _ h1]
  simp only [List.getElem_map]
  rw [List.getD_eq_getElem _ _ (by rw [pldScores_length]; exact hl)]

/-- C6: a completed `PLD(wordFreq)` computes, per label `l`, the score
`ln(PL[l]) + Σ PWL(l, wordID)` with the sum taken exactly once per
distinct word ID present in `wordFreq`, then exponentiates and normalises
by the sum over labels; the occurrence counts stored in `wordFreq` are
never used — any map with the same key set (in any order) produces the
identical result. -/
theorem c6_pld_sums_distinct_keys (dd : Bow) (wfreq : List (Int × Int))
    (hnd : (wfreq.map Prod.fst).Nodup) :
    (∀ t pld, pldExec dd wfreq = Except.ok (t, pld) →
      ∀ l : Nat, l < dd.LabelCount.toNat →
        pld.getD l 0 =
          Real.exp (Real.log (((t.PL.getD l 0 : ℚ) : ℝ)) +
            (∑ w in (wfreq.map Prod.fst).toFinset, PWL t (Int.ofNat l) w)) /
          (∑ j in Finset.range dd.LabelCount.toNat,
            Real.exp (Real.log (((t.PL.getD j 0 : ℚ) : ℝ)) +
              (∑ w in (wfreq.map Prod.fst).toFinset, PWL t (Int.ofNat j) w)))) ∧
    (∀ wfreq2 : List (Int × Int), (wfreq2.map Prod.fst).Perm (wfreq.map Prod.fst) →
      pldExec dd wfreq2 = pldExec dd wfreq) := by
  constructor
  · intro t pld hok l hl
    unfold pldExec at hok
    cases hu : updatePLExec dd with
    | error e => rw [hu] at hok; simp at hok
    | ok t' =>
      rw [hu] at hok
      simp only [Except.ok.injEq, Prod.mk.injEq] at hok
      obtain ⟨ht', hpld⟩ := hok
      rw [← hpld, ← ht']
      have hframe := updatePL_frame dd
      rw [hu] at hframe
      simp only [exceptState] at hframe
      have hlc : t'.LabelCount = dd.LabelCount := hframe.1.2.2.1
      have hl' : l < t'.LabelCount.toNat := by rw [hlc]; exact hl
      rw [pldVec_getD t' wfreq l hl', pldScores_getD t' wfreq l hl', pldScores_sum t' wfreq]
      have hsum : ∀ j : Int, ((wfreq.map Prod.fst).map (PWL t' j)).sum =
          ∑ w in (wfreq.map Prod.fst).toFinset, PWL t' j w := by
        intro j
        rw [List.sum_toFinset _ hnd]
      rw [hsum (Int.ofNat l), hlc]
      congr 1
      apply Finset.sum_congr rfl
      intro j hj
      rw [hsum (Int.ofNat j)]
  · intro wfreq2 hperm
    unfold pldExec
    cases hu : updatePLExec dd with
    | error e => rfl
    | ok t =>
      have hscores : pldScores t wfreq2 = pldScores t wfreq := by
        unfold pldScores
        apply List.map_congr_left
        intro j hj
        rw [foldl_add_pwl, foldl_add_pwl]
        rw [((hperm.map (PWL t (Int.ofNat j)))).sum_eq]
      have hvec : pldVec t wfreq2 = pldVec t wfreq := by
        unfold pldVec
        rw [hscores]
      simp only [hvec]

theorem c6_witness :
    ((([(0, 5), (1, 2)] : List (Int × Int)).map Prod.fst).Nodup) ∧
    ((∀ t pld, pldExec bow2 [(0, 5), (1, 2)] = Except.ok (t, pld) →
      ∀ l : Nat, l < bow2.LabelCount.toNat →
        pld.getD l 0 =
          Real.exp (Real.log (((t.PL.getD l 0 : ℚ) : ℝ)) +
            (∑ w in (([(0, 5), (1, 2)] : List (Int × Int)).map Prod.fst).toFinset,
              PWL t (Int.ofNat l) w)) /
          (∑ j in Finset.range bow2.LabelCount.toNat,
            Real.exp (Real.log (((t.PL.getD j 0 : ℚ) : ℝ)) +
              (∑ w in (([(0, 5), (1, 2)] : List (Int × Int)).map Prod.fst).toFinset,
                PWL t (Int.ofNat j) w)))) ∧
    (∀ wfreq2 : List (Int × Int),
      (wfreq2.map Prod.fst).Perm (([(0, 5), (1, 2)] : List (Int × Int)).map Prod.fst) →
      pldExec bow2 wfreq2 = pldExec bow2 [(0, 5), (1, 2)])) :=
  ⟨by decide, c6_pld_sums_distinct_keys bow2 [(0, 5), (1, 2)] (by decide)⟩

end Bayesbow
